import Mathlib

/-!
Shallow embedding of the templatex repository (package templatex).

The embedded code is the variant in the source file that defines both the
local-filesystem walker (Namespaces.parseDir) and the abstract-filesystem
walker (Namespaces.parseDirFS), together with New, ParseRoot, ParseRootFS,
Namespace, ExecuteNamespace and DefinedNamespaces.

Modelling conventions, stated once here:

- Go map[string]T becomes an association list with insert-replace
  semantics (amInsert / amLookup below); assignment m[k] = v is amInsert.
- The Go html/template engine is an external collaborator. A template
  value is modelled as its name together with the finite map from defined
  template names to their bodies. Parsing a file is modelled at the
  precision the verified claims need: a file carries an optional top-level
  body (none models a template syntax error that makes parsing fail) and
  the list of name/body pairs contributed by its define blocks. Installing
  a definition replaces any earlier definition of the same name, which is
  the documented redefinition behaviour of the engine. t.ParseFiles(f)
  installs the top-level body under the base filename of f;
  t.Parse(text) installs it under the name of t itself. Clone produces an
  independent copy. Rendering is modelled as a deterministic function of
  the selected body (the claims only compare render outcomes for equality
  and inspect error kinds, never the rendered text itself).
- A directory is modelled as a node carrying a flag readErr (true models
  a directory whose enumeration fails), its regular files and its named
  subdirectories in enumeration order. filepath.Match of the
  pattern formed by a star and the configured extension is modelled as a
  suffix test, which is exact for extension strings free of pattern
  metacharacters, the only configurations the package is used with.
- path.Join of a clean namespace path and a directory entry name is
  nsJoin below, exact for the slash-free nonempty names real directory
  entries have.
- The abstract filesystem is modelled by the directory tree plus a flag
  saying whether opened directory handles implement the read-dir
  capability (the fs.ReadDirFile downcast in parseDirFS).
- The walkers mutate ns.namespaces in place, so the embedding threads the
  table through and returns it together with the optional error, also on
  the error path: exactly the state the Go code leaves behind.
-/

namespace Templatex

/-- Error kinds of the package: ErrParse, ErrNotFound, ErrUnsupportedOp,
and the engine-level error ExecuteTemplate returns when the requested
template name is not defined in the set. -/
inductive Err where
  | parse
  | notFound
  | unsupportedOp
  | execMissing
deriving DecidableEq, Repr

/-- Association-list lookup, the read side of a Go map. -/
def amLookup {β : Type} : List (String × β) → String → Option β
  | [], _ => none
  | (k, v) :: rest, n => if k = n then some v else amLookup rest n

/-- Association-list insert-replace, the write side of a Go map:
assignment m[k] = v. -/
def amInsert {β : Type} : List (String × β) → String → β → List (String × β)
  | [], k, v => [(k, v)]
  | (k', v') :: rest, k, v =>
    if k' = k then (k, v) :: rest else (k', v') :: amInsert rest k v

/-- A template file: its file name, its optional top-level body (none models
a file the engine rejects with a parse error) and the definitions its
define blocks contribute, in order. -/
structure FileModel where
  name : String
  body : Option String
  defs : List (String × String)
deriving DecidableEq, Repr

/-- Model of an html/template value: its own name and the map from defined
template names to bodies. -/
structure Template where
  name : String
  defs : List (String × String)
deriving DecidableEq, Repr

/-- Install a list of definitions in order, each replacing any earlier
definition of the same name. -/
def defsInsertAll (d : List (String × String)) : List (String × String) → List (String × String)
  | [] => d
  | (k, v) :: rest => defsInsertAll (amInsert d k v) rest

/-- Model of parsing template text into t: the top-level body is installed
under asName, then the define blocks are installed in order. -/
def Template.parseText (t : Template) (asName : String) (body : String)
    (defs : List (String × String)) : Template :=
  { t with defs := defsInsertAll (amInsert t.defs asName body) defs }

/-- Model of Template.Clone: an independent copy of the set. -/
def Template.clone (t : Template) : Template := t

/-- Rendering a template body against data, modelled as a deterministic
function of the body. -/
def render (body : String) (_data : String) : String := body

/-- Model of t.ExecuteTemplate(w, name, data): renders the definition named
name, or fails if the set does not define it. -/
def Template.executeTemplate (t : Template) (name : String) (data : String) :
    Except Err String :=
  match amLookup t.defs name with
  | none => .error .execMissing
  | some body => .ok (render body data)

/-- Extension test of the walkers: filepath.Match of star plus ext against
the file name, exact for metacharacter-free extensions: the name ends
with the configured extension. -/
def fileMatches (ext name : String) : Bool := ext.data.isSuffixOf name.data

/-- File loop of Namespaces.parseDir: each file matching the extension is
parsed into tmpl via ParseFiles, so its body is installed under the file
name itself; the first parse failure aborts. -/
def parseFilesLocal (ext : String) (tmpl : Template) : List FileModel → Option Template
  | [] => some tmpl
  | f :: rest =>
    if fileMatches ext f.name then
      match f.body with
      | none => none
      | some b => parseFilesLocal ext (tmpl.parseText f.name b f.defs) rest
    else parseFilesLocal ext tmpl rest

/-- File loop of Namespaces.parseDirFS: each matching file is read and
parsed via tmpl.Parse, so its body is installed under the name of tmpl
itself (the index template name the root template was created with). -/
def parseFilesFS (ext : String) (tmpl : Template) : List FileModel → Option Template
  | [] => some tmpl
  | f :: rest =>
    if fileMatches ext f.name then
      match f.body with
      | none => none
      | some b => parseFilesFS ext (tmpl.parseText tmpl.name b f.defs) rest
    else parseFilesFS ext tmpl rest

mutual

/-- A directory: whether enumerating it fails, its template files and its
subdirectories in enumeration order. -/
inductive DirTree : Type where
  | node (readErr : Bool) (files : List FileModel) (subs : SubTrees)

/-- The named subdirectories of a directory. -/
inductive SubTrees : Type where
  | nil
  | cons (name : String) (tree : DirTree) (rest : SubTrees)

end

/-- Child namespace path: path.Join(nsname, sub) for a clean nsname rooted
at the slash and a slash-free nonempty entry name. -/
def nsPrefix (ns : String) : String := if ns = "/" then "/" else ns ++ "/"

/-- Namespace path of the subdirectory named sub of the directory at ns. -/
def nsJoin (ns sub : String) : String := nsPrefix ns ++ sub

/-- The namespace table: the Go map from namespace path to template. -/
def Table : Type := List (String × Template)

mutual

/-- Embedding of Namespaces.parseDir: reads the directory (failing with
ErrParse if enumeration fails), parses matching files into tmpl in order
(failing with ErrParse on the first bad file), registers the grown
template under nsname, then recurses into each subdirectory with a clone.
Returns the table as left behind together with the error if any. -/
def parseDir (ext : String) (t : DirTree) (nsname : String) (tmpl : Template)
    (table : Table) : Table × Option Err :=
  match t with
  | .node readErr files subs =>
    if readErr then (table, some .parse)
    else
      match parseFilesLocal ext tmpl files with
      | none => (table, some .parse)
      | some tmpl' =>
        parseSubs ext subs nsname tmpl' (amInsert table nsname tmpl')
termination_by structural t

/-- Subdirectory loop of Namespaces.parseDir: recurse into each
subdirectory in order with a clone of the accumulated template, stopping
at the first error. -/
def parseSubs (ext : String) (s : SubTrees) (nsname : String) (tmpl : Template)
    (table : Table) : Table × Option Err :=
  match s with
  | .nil => (table, none)
  | .cons name sub rest =>
    match parseDir ext sub (nsJoin nsname name) tmpl.clone table with
    | (table', some e) => (table', some e)
    | (table', none) => parseSubs ext rest nsname tmpl table'
termination_by structural s

end

mutual

/-- Embedding of Namespaces.parseDirFS: opens the directory, fails with
ErrUnsupportedOp if the handle does not implement the read-dir capability,
fails with ErrParse if enumeration fails, parses matching files into tmpl
via Parse, registers the template under nsname, then recurses with
clones. -/
def parseDirFS (sup : Bool) (ext : String) (t : DirTree) (nsname : String)
    (tmpl : Template) (table : Table) : Table × Option Err :=
  match t with
  | .node readErr files subs =>
    if !sup then (table, some .unsupportedOp)
    else if readErr then (table, some .parse)
    else
      match parseFilesFS ext tmpl files with
      | none => (table, some .parse)
      | some tmpl' =>
        parseSubsFS sup ext subs nsname tmpl' (amInsert table nsname tmpl')
termination_by structural t

/-- Subdirectory loop of Namespaces.parseDirFS. -/
def parseSubsFS (sup : Bool) (ext : String) (s : SubTrees) (nsname : String)
    (tmpl : Template) (table : Table) : Table × Option Err :=
  match s with
  | .nil => (table, none)
  | .cons name sub rest =>
    match parseDirFS sup ext sub (nsJoin nsname name) tmpl.clone table with
    | (table', some e) => (table', some e)
    | (table', none) => parseSubsFS sup ext rest nsname tmpl table'
termination_by structural s

end

/-- The Namespaces registry: configured index template file name, template
file extension and the namespace table. The mutex serializing access is
not part of the sequential state. -/
structure Namespaces where
  index : String
  ext : String
  namespaces : Table

/-- Embedding of New: a registry with the given configuration and an empty
table. -/
def New (index ext : String) : Namespaces :=
  { index := index, ext := ext, namespaces := [] }

/-- Embedding of Namespaces.ParseRoot: walks the cleaned root directory
starting at namespace path slash with an empty unnamed template, mutating
the table of ns in place. Returns the registry as left behind and the
error if any. -/
def Namespaces.ParseRoot (ns : Namespaces) (root : DirTree) : Namespaces × Option Err :=
  let r := parseDir ns.ext root "/" (Template.mk "" []) ns.namespaces
  ({ ns with namespaces := r.1 }, r.2)

/-- Embedding of Namespaces.ParseRootFS: like ParseRoot but over the
abstract filesystem, seeding the root template with the index file name. -/
def Namespaces.ParseRootFS (ns : Namespaces) (sup : Bool) (root : DirTree) :
    Namespaces × Option Err :=
  let r := parseDirFS sup ns.ext root "/" (Template.mk (ns.index ++ ns.ext) []) ns.namespaces
  ({ ns with namespaces := r.1 }, r.2)

/-- Embedding of Namespaces.Namespace: lookup of a namespace by path; the
boolean of the Go pair is the is-some of the option. -/
def Namespaces.Namespace (ns : Namespaces) (name : String) : Option Template :=
  amLookup ns.namespaces name

/-- Embedding of Namespaces.ExecuteNamespace: looks up the path, failing
with ErrNotFound if absent, otherwise renders the template named index
plus extension from that namespace. On error nothing has been written to
the sink; on success the returned string is what is written. -/
def Namespaces.ExecuteNamespace (ns : Namespaces) (path : String) (data : String) :
    Except Err String :=
  match amLookup ns.namespaces path with
  | none => .error .notFound
  | some tt => tt.executeTemplate (ns.index ++ ns.ext) data

/-- Embedding of Namespaces.DefinedNamespaces: the registered namespace
paths. -/
def Namespaces.DefinedNamespaces (ns : Namespaces) : List String :=
  ns.namespaces.map Prod.fst

/-!
Specification-side functions: the namespace paths a walk of a tree
registers, the failure predicate of a walk, well-formedness of a tree as
a real directory tree, paths into a tree and the chain-of-directories
semantics of inheritance. These are the yardsticks the walkers are
measured against.
-/

mutual

/-- Namespace paths a walk rooted at ns registers for tree t: ns itself
and, per subdirectory name a, the paths of that subtree rooted at the
joined path. -/
def nsList (t : DirTree) (ns : String) : List String :=
  match t with
  | .node _ _ subs => ns :: subsList subs ns
termination_by structural t

/-- Namespace paths contributed by a list of subdirectories of the
directory at ns. -/
def subsList (s : SubTrees) (ns : String) : List String :=
  match s with
  | .nil => []
  | .cons a t rest => nsList t (nsJoin ns a) ++ subsList rest ns
termination_by structural s

end

/-- A file list makes the file loop fail iff some file matches the
extension and its content does not parse. -/
def filesFail (ext : String) (files : List FileModel) : Bool :=
  files.any (fun f => fileMatches ext f.name && f.body.isNone)

mutual

/-- A walk of t fails iff some reachable directory fails to enumerate or
holds a matching file that fails to parse. -/
def walkFails (ext : String) (t : DirTree) : Bool :=
  match t with
  | .node readErr files subs => readErr || filesFail ext files || subsFail ext subs
termination_by structural t

/-- Failure predicate over a list of subdirectories. -/
def subsFail (ext : String) (s : SubTrees) : Bool :=
  match s with
  | .nil => false
  | .cons _ t rest => walkFails ext t || subsFail ext rest
termination_by structural s

end

/-- A slash-free string, as every real directory entry name is. -/
def slashFree (s : String) : Bool := s.data.all (fun c => c ≠ '/')

/-- Whether a subdirectory list contains an entry of the given name. -/
def subsHasName : SubTrees → String → Bool
  | .nil, _ => false
  | .cons a _ rest, n => a = n || subsHasName rest n

mutual

/-- Well-formedness of a tree as the image of a real directory tree: at
every node the subdirectory names are nonempty, slash-free and pairwise
distinct. -/
def wfTree (t : DirTree) : Bool :=
  match t with
  | .node _ _ subs => wfSubs subs
termination_by structural t

/-- Well-formedness of a subdirectory list. -/
def wfSubs (s : SubTrees) : Bool :=
  match s with
  | .nil => true
  | .cons a t rest =>
    !a.data.isEmpty && slashFree a && !subsHasName rest a && wfTree t && wfSubs rest
termination_by structural s

end

/-- First subdirectory of the given name, as the walk resolves it. -/
def findSub : SubTrees → String → Option DirTree
  | .nil, _ => none
  | .cons a t rest, n => if a = n then some t else findSub rest n

/-- The subtree at a path of subdirectory names. -/
def subtreeAt (t : DirTree) : List String → Option DirTree
  | [] => some t
  | a :: p =>
    match t with
    | .node _ _ subs => (findSub subs a).bind (fun ta => subtreeAt ta p)

/-- The file lists of the directories along a path from the root of t to
the directory it denotes, root first, target last. -/
def dirsAlong (t : DirTree) : List String → Option (List (List FileModel))
  | [] =>
    match t with
    | .node _ files _ => some [files]
  | a :: p =>
    match t with
    | .node _ files subs =>
      (findSub subs a).bind fun ta =>
        (dirsAlong ta p).map (fun l => files :: l)

/-- The namespace path of the directory reached from ns along a list of
subdirectory names. -/
def joinAll (ns : String) : List String → String
  | [] => ns
  | a :: p => joinAll (nsJoin ns a) p

/-- Folding the local file loop over the chain of directories from the
root to a directory: the template its namespace ends up with. -/
def chainFold (ext : String) (tmpl : Template) : List (List FileModel) → Option Template
  | [] => some tmpl
  | files :: rest =>
    match parseFilesLocal ext tmpl files with
    | none => none
    | some tmpl' => chainFold ext tmpl' rest

/-- Biased choice on options: the left operand, standing for the later
write, takes precedence. -/
def oElse {α : Type} : Option α → Option α → Option α
  | some a, _ => some a
  | none, b => b

/-- The last body a definition list assigns to the name n, later entries
replacing earlier ones. -/
def lastAssoc (n : String) : List (String × String) → Option String
  | [] => none
  | (k, v) :: rest => oElse (lastAssoc n rest) (if k = n then some v else none)

/-- The body a single locally parsed file assigns to the name n: its
define blocks take precedence over its top-level body, which is installed
under the file name. -/
def fileDefLocal (n : String) (f : FileModel) : Option String :=
  oElse (lastAssoc n f.defs) (if f.name = n then f.body else none)

/-- The last body the local file loop assigns to the name n over a file
list, later files replacing earlier ones. -/
def lastDefFiles (ext n : String) : List FileModel → Option String
  | [] => none
  | f :: rest =>
    oElse (lastDefFiles ext n rest)
      (if fileMatches ext f.name then fileDefLocal n f else none)

/-- The last body assigned to the name n along a chain of directories,
deeper directories replacing shallower ones. -/
def lastDefChain (ext n : String) : List (List FileModel) → Option String
  | [] => none
  | files :: rest => oElse (lastDefChain ext n rest) (lastDefFiles ext n files)

mutual

/-- Whether any directory of the tree holds a matching file assigning a
body to the name n. -/
def treeDefines (ext n : String) (t : DirTree) : Bool :=
  match t with
  | .node _ files subs =>
    (lastDefFiles ext n files).isSome || subsDefine ext n subs
termination_by structural t

/-- treeDefines over a subdirectory list. -/
def subsDefine (ext n : String) (s : SubTrees) : Bool :=
  match s with
  | .nil => false
  | .cons _ t rest => treeDefines ext n t || subsDefine ext n rest
termination_by structural s

end

/-- The files of a directory node. -/
def filesOf : DirTree → List FileModel
  | .node _ fs _ => fs

/-- The subdirectories of a directory node. -/
def subsOf : DirTree → SubTrees
  | .node _ _ s => s

/-- The body the registry associates with template name n inside the
namespace registered at path: lookup of the namespace followed by lookup
of the definition. -/
def nsDefLookup (nsp : Namespaces) (path n : String) : Option String :=
  (amLookup nsp.namespaces path).bind (fun tt => amLookup tt.defs n)

/-- A suffix of a namespace path relative to an ancestor path: empty or
continuing with a path separator. -/
def goodSuffix (r : List Char) : Prop := r = [] ∨ ∃ u, r = '/' :: u

/-!
Concrete directory trees used to exercise the theorems and to separate
the two walkers and the failure behaviours.
-/

/-- An index template file with body A. -/
def fileIdxA : FileModel := ⟨"index.tmpl", some "A", []⟩

/-- An index template file with body B. -/
def fileIdxB : FileModel := ⟨"index.tmpl", some "B", []⟩

/-- A sidebar template file. -/
def fileSidebar : FileModel := ⟨"sidebar.tmpl", some "S", []⟩

/-- A template file named x.tmpl as defined at a root directory. -/
def fileRootX : FileModel := ⟨"x.tmpl", some "root-x", []⟩

/-- A template file named x.tmpl as redefined in a child directory. -/
def fileChildX : FileModel := ⟨"x.tmpl", some "child-x", []⟩

/-- A root directory holding one index template. -/
def treeSingle : DirTree := .node false [fileIdxA] .nil

/-- A root whose index parses but whose subdirectory fails to enumerate. -/
def treeFailing : DirTree :=
  .node false [fileIdxB] (.cons "x" (.node true [] .nil) .nil)

/-- A root with one subdirectory named old. -/
def treeWithOld : DirTree :=
  .node false [fileIdxA] (.cons "old" (.node false [] .nil) .nil)

/-- A child directory redefining x.tmpl, with an empty grandchild. -/
def treeChild : DirTree :=
  .node false [fileChildX] (.cons "grand" (.node false [] .nil) .nil)

/-- A sibling directory defining nothing, with an empty subdirectory. -/
def treeSib : DirTree :=
  .node false [] (.cons "deep" (.node false [] .nil) .nil)

/-- A root defining x.tmpl, a child redefining it, and a sibling
directory defining nothing. -/
def treeOverride : DirTree :=
  .node false [fileRootX] (.cons "child" treeChild (.cons "sib" treeSib .nil))

/-- A home branch defining nothing, with a nested inner directory. -/
def treeHomeBranch : DirTree :=
  .node false [] (.cons "inner" (.node false [] .nil) .nil)

/-- A settings branch defining x.tmpl. -/
def treeSettings : DirTree := .node false [fileChildX] .nil

/-- A root with a home branch defining nothing and a settings branch
defining x.tmpl. -/
def treeIso : DirTree :=
  .node false [] (.cons "home" treeHomeBranch (.cons "settings" treeSettings .nil))

/-- A root holding only a sidebar template, and no index file. -/
def treeSidebar : DirTree := .node false [fileSidebar] .nil

/-- A root with an index, a sidebar and a home subdirectory overriding
the index. -/
def treeHome : DirTree :=
  .node false [fileIdxA, fileSidebar] (.cons "home" (.node false [fileIdxB] .nil) .nil)

/-- A root directory that fails to enumerate. -/
def treeReadErr : DirTree := .node true [] .nil

/-- Mutual induction combinator for directory trees and subdirectory
lists. -/
theorem DirTree.myInduction (P : DirTree → Prop) (Q : SubTrees → Prop)
    (hnode : ∀ re fs s, Q s → P (.node re fs s))
    (hnil : Q .nil)
    (hcons : ∀ a t r, P t → Q r → Q (.cons a t r)) :
    (∀ t, P t) ∧ (∀ s, Q s) :=
  ⟨fun t => DirTree.rec (motive_1 := P) (motive_2 := Q) hnode hnil hcons t,
   fun s => SubTrees.rec (motive_1 := P) (motive_2 := Q) hnode hnil hcons s⟩

/-!
Basic lemmas: association maps, biased choice, the file loops and the
chain semantics of template definitions.
-/

@[simp]
theorem oElse_none {α : Type} (b : Option α) : oElse none b = b := rfl

@[simp]
theorem oElse_some {α : Type} (a : α) (b : Option α) : oElse (some a) b = some a := rfl

theorem oElse_assoc {α : Type} (a b c : Option α) :
    oElse (oElse a b) c = oElse a (oElse b c) := by
  cases a <;> rfl

@[simp]
theorem oElse_none_right {α : Type} (a : Option α) : oElse a none = a := by
  cases a <;> rfl

theorem oElse_isSome {α : Type} (a b : Option α) :
    (oElse a b).isSome = (a.isSome || b.isSome) := by
  cases a <;> simp [oElse]

@[simp]
theorem amLookup_nil {β : Type} (n : String) : amLookup ([] : List (String × β)) n = none := rfl

theorem amLookup_amInsert_self {β : Type} (m : List (String × β)) (k : String) (v : β) :
    amLookup (amInsert m k v) k = some v := by
  induction m with
  | nil => simp [amInsert, amLookup]
  | cons p rest ih =>
    obtain ⟨k', v'⟩ := p
    by_cases h : k' = k
    · simp [amInsert, h, amLookup]
    · simp [amInsert, h, amLookup, ih]

theorem amLookup_amInsert_ne {β : Type} (m : List (String × β)) (k k' : String) (v : β)
    (h : k' ≠ k) : amLookup (amInsert m k v) k' = amLookup m k' := by
  induction m with
  | nil => simp [amInsert, amLookup, Ne.symm h]
  | cons p rest ih =>
    obtain ⟨k₀, v₀⟩ := p
    by_cases h0 : k₀ = k
    · subst h0
      simp [amInsert, amLookup, Ne.symm h]
    · simp only [amInsert, if_neg h0, amLookup]
      by_cases h1 : k₀ = k'
      · simp [h1]
      · simp [h1, ih]

theorem amLookup_amInsert_isSome {β : Type} (m : List (String × β)) (k k' : String) (v : β)
    (h : (amLookup m k').isSome = true) :
    (amLookup (amInsert m k v) k').isSome = true := by
  by_cases e : k' = k
  · subst e; simp [amLookup_amInsert_self]
  · rw [amLookup_amInsert_ne m k k' v e]; exact h

theorem amInsert_keys {β : Type} (m : List (String × β)) (k : String) (v : β) :
    (amInsert m k v).map Prod.fst =
      if k ∈ m.map Prod.fst then m.map Prod.fst else m.map Prod.fst ++ [k] := by
  induction m with
  | nil => simp [amInsert]
  | cons p rest ih =>
    obtain ⟨k₀, v₀⟩ := p
    by_cases h0 : k₀ = k
    · subst h0; simp [amInsert]
    · simp only [amInsert, if_neg h0, List.map_cons, ih]
      by_cases hm : k ∈ rest.map Prod.fst
      · simp [hm, Ne.symm h0]
      · simp [hm, Ne.symm h0]

theorem amInsert_keys_nodup {β : Type} (m : List (String × β)) (k : String) (v : β)
    (h : (m.map Prod.fst).Nodup) : ((amInsert m k v).map Prod.fst).Nodup := by
  rw [amInsert_keys]
  by_cases hm : k ∈ m.map Prod.fst
  · simpa [hm] using h
  · simp [hm, List.nodup_append, h]

theorem parseFilesLocal_eq_none (ext : String) (tmpl : Template) (files : List FileModel) :
    parseFilesLocal ext tmpl files = none ↔ filesFail ext files = true := by
  induction files generalizing tmpl with
  | nil => simp [parseFilesLocal, filesFail]
  | cons f rest ih =>
    obtain ⟨fn, fb, fd⟩ := f
    by_cases hm : fileMatches ext fn
    · cases fb with
      | none => simp [parseFilesLocal, hm, filesFail]
      | some b => simp [parseFilesLocal, hm, filesFail, ih]
    · simp [parseFilesLocal, hm, filesFail, ih]

theorem parseFilesFS_eq_none (ext : String) (tmpl : Template) (files : List FileModel) :
    parseFilesFS ext tmpl files = none ↔ filesFail ext files = true := by
  induction files generalizing tmpl with
  | nil => simp [parseFilesFS, filesFail]
  | cons f rest ih =>
    obtain ⟨fn, fb, fd⟩ := f
    by_cases hm : fileMatches ext fn
    · cases fb with
      | none => simp [parseFilesFS, hm, filesFail]
      | some b => simp [parseFilesFS, hm, filesFail, ih]
    · simp [parseFilesFS, hm, filesFail, ih]

theorem defsInsertAll_lookup (d l : List (String × String)) (n : String) :
    amLookup (defsInsertAll d l) n = oElse (lastAssoc n l) (amLookup d n) := by
  induction l generalizing d with
  | nil => simp [defsInsertAll, lastAssoc]
  | cons p rest ih =>
    obtain ⟨k, v⟩ := p
    rw [defsInsertAll, ih, lastAssoc, oElse_assoc]
    by_cases hk : k = n
    · subst hk
      simp [amLookup_amInsert_self]
    · simp [hk, amLookup_amInsert_ne d k n v (Ne.symm hk)]

theorem parseText_lookup (t : Template) (a b : String) (ds : List (String × String))
    (n : String) :
    amLookup (t.parseText a b ds).defs n =
      oElse (oElse (lastAssoc n ds) (if a = n then some b else none)) (amLookup t.defs n) := by
  rw [Template.parseText]
  simp only [defsInsertAll_lookup, oElse_assoc]
  by_cases ha : a = n
  · subst ha
    simp [amLookup_amInsert_self]
  · simp [ha, amLookup_amInsert_ne t.defs a n b (Ne.symm ha)]

theorem parseFilesLocal_lookup (ext : String) (tmpl tmpl' : Template)
    (files : List FileModel) (n : String)
    (h : parseFilesLocal ext tmpl files = some tmpl') :
    amLookup tmpl'.defs n = oElse (lastDefFiles ext n files) (amLookup tmpl.defs n) := by
  induction files generalizing tmpl with
  | nil =>
    simp only [parseFilesLocal, Option.some.injEq] at h
    subst h
    simp [lastDefFiles]
  | cons f rest ih =>
    obtain ⟨fn, fb, fd⟩ := f
    by_cases hm : fileMatches ext fn
    · cases fb with
      | none => simp [parseFilesLocal, hm] at h
      | some b =>
        simp only [parseFilesLocal, hm, if_pos] at h
        rw [ih _ h, lastDefFiles]
        simp only [hm, if_pos, fileDefLocal]
        rw [parseText_lookup]
        simp [oElse_assoc]
    · simp only [parseFilesLocal, hm] at h
      rw [ih _ h, lastDefFiles]
      simp [hm]

theorem chainFold_lookup (ext : String) (tmpl tmpl' : Template)
    (l : List (List FileModel)) (n : String)
    (h : chainFold ext tmpl l = some tmpl') :
    amLookup tmpl'.defs n = oElse (lastDefChain ext n l) (amLookup tmpl.defs n) := by
  induction l generalizing tmpl with
  | nil =>
    simp only [chainFold, Option.some.injEq] at h
    subst h
    simp [lastDefChain]
  | cons files rest ih =>
    rw [chainFold] at h
    cases hf : parseFilesLocal ext tmpl files with
    | none => rw [hf] at h; cases h
    | some t1 =>
      rw [hf] at h
      rw [ih _ h, lastDefChain, parseFilesLocal_lookup ext tmpl t1 files n hf, oElse_assoc]

theorem chainFold_isSome (ext : String) (tmpl : Template) (l : List (List FileModel))
    (h : ∀ files ∈ l, filesFail ext files = false) :
    (chainFold ext tmpl l).isSome = true := by
  induction l generalizing tmpl with
  | nil => simp [chainFold]
  | cons files rest ih =>
    rw [chainFold]
    cases hf : parseFilesLocal ext tmpl files with
    | none =>
      rw [parseFilesLocal_eq_none] at hf
      have := h files (by simp)
      rw [this] at hf
      cases hf
    | some t1 =>
      exact ih t1 (fun fs hfs => h fs (by simp [hfs]))

/-!
Unfolding equations and the failure characterization of the walkers.
-/

theorem parseDir_node (ext : String) (re : Bool) (files : List FileModel) (subs : SubTrees)
    (ns : String) (tmpl : Template) (tbl : Table) :
    parseDir ext (.node re files subs) ns tmpl tbl =
      if re then (tbl, some .parse)
      else
        match parseFilesLocal ext tmpl files with
        | none => (tbl, some .parse)
        | some tmpl' => parseSubs ext subs ns tmpl' (amInsert tbl ns tmpl') := rfl

theorem parseDir_node_true (ext : String) (files : List FileModel) (subs : SubTrees)
    (ns : String) (tmpl : Template) (tbl : Table) :
    parseDir ext (.node true files subs) ns tmpl tbl = (tbl, some .parse) := rfl

theorem parseDir_node_none (ext : String) (files : List FileModel) (subs : SubTrees)
    (ns : String) (tmpl : Template) (tbl : Table)
    (hf : parseFilesLocal ext tmpl files = none) :
    parseDir ext (.node false files subs) ns tmpl tbl = (tbl, some .parse) := by
  rw [parseDir_node]
  simp [hf]

theorem parseDir_node_some (ext : String) (files : List FileModel) (subs : SubTrees)
    (ns : String) (tmpl tmpl' : Template) (tbl : Table)
    (hf : parseFilesLocal ext tmpl files = some tmpl') :
    parseDir ext (.node false files subs) ns tmpl tbl =
      parseSubs ext subs ns tmpl' (amInsert tbl ns tmpl') := by
  rw [parseDir_node]
  simp [hf]

theorem parseSubs_nil (ext : String) (ns : String) (tmpl : Template) (tbl : Table) :
    parseSubs ext .nil ns tmpl tbl = (tbl, none) := rfl

theorem parseSubs_cons_some (ext name : String) (sub : DirTree) (rest : SubTrees)
    (ns : String) (tmpl : Template) (tbl tbl1 : Table) (e : Err)
    (h : parseDir ext sub (nsJoin ns name) tmpl.clone tbl = (tbl1, some e)) :
    parseSubs ext (.cons name sub rest) ns tmpl tbl = (tbl1, some e) := by
  rw [parseSubs, h]

theorem parseSubs_cons_none (ext name : String) (sub : DirTree) (rest : SubTrees)
    (ns : String) (tmpl : Template) (tbl tbl1 : Table)
    (h : parseDir ext sub (nsJoin ns name) tmpl.clone tbl = (tbl1, none)) :
    parseSubs ext (.cons name sub rest) ns tmpl tbl = parseSubs ext rest ns tmpl tbl1 := by
  rw [parseSubs, h]

theorem parseDirFS_node (sup : Bool) (ext : String) (re : Bool) (files : List FileModel)
    (subs : SubTrees) (ns : String) (tmpl : Template) (tbl : Table) :
    parseDirFS sup ext (.node re files subs) ns tmpl tbl =
      if !sup then (tbl, some .unsupportedOp)
      else if re then (tbl, some .parse)
      else
        match parseFilesFS ext tmpl files with
        | none => (tbl, some .parse)
        | some tmpl' => parseSubsFS sup ext subs ns tmpl' (amInsert tbl ns tmpl') := rfl

theorem parseSubsFS_nil (sup : Bool) (ext : String) (ns : String) (tmpl : Template)
    (tbl : Table) : parseSubsFS sup ext .nil ns tmpl tbl = (tbl, none) := rfl

theorem parseSubsFS_cons_some (sup : Bool) (ext name : String) (sub : DirTree)
    (rest : SubTrees) (ns : String) (tmpl : Template) (tbl tbl1 : Table) (e : Err)
    (h : parseDirFS sup ext sub (nsJoin ns name) tmpl.clone tbl = (tbl1, some e)) :
    parseSubsFS sup ext (.cons name sub rest) ns tmpl tbl = (tbl1, some e) := by
  rw [parseSubsFS, h]

theorem parseSubsFS_cons_none (sup : Bool) (ext name : String) (sub : DirTree)
    (rest : SubTrees) (ns : String) (tmpl : Template) (tbl tbl1 : Table)
    (h : parseDirFS sup ext sub (nsJoin ns name) tmpl.clone tbl = (tbl1, none)) :
    parseSubsFS sup ext (.cons name sub rest) ns tmpl tbl =
      parseSubsFS sup ext rest ns tmpl tbl1 := by
  rw [parseSubsFS, h]

theorem walkErrAux (ext : String) :
    (∀ t, ∀ ns tmpl tbl, ((parseDir ext t ns tmpl tbl).2 = none ↔ walkFails ext t = false)) ∧
    (∀ s, ∀ ns tmpl tbl, ((parseSubs ext s ns tmpl tbl).2 = none ↔ subsFail ext s = false)) := by
  apply DirTree.myInduction
    (fun t => ∀ ns tmpl tbl, ((parseDir ext t ns tmpl tbl).2 = none ↔ walkFails ext t = false))
    (fun s => ∀ ns tmpl tbl, ((parseSubs ext s ns tmpl tbl).2 = none ↔ subsFail ext s = false))
  · intro re fs s hQ ns tmpl tbl
    rw [parseDir_node]
    cases re with
    | true => simp [walkFails]
    | false =>
      cases hf : parseFilesLocal ext tmpl fs with
      | none =>
        have := (parseFilesLocal_eq_none ext tmpl fs).mp hf
        simp [walkFails, this]
      | some tmpl' =>
        have hff : filesFail ext fs = false := by
          cases hc : filesFail ext fs
          · rfl
          · exact absurd ((parseFilesLocal_eq_none ext tmpl fs).mpr hc) (by simp [hf])
        simp [walkFails, hff, hQ]
  · intro ns tmpl tbl
    simp [parseSubs_nil, subsFail]
  · intro a t r hP hQ ns tmpl tbl
    rcases hd : parseDir ext t (nsJoin ns a) tmpl.clone tbl with ⟨tbl1, e1⟩
    cases e1 with
    | some e =>
      rw [parseSubs_cons_some ext a t r ns tmpl tbl tbl1 e hd]
      have : ¬ walkFails ext t = false := by
        intro hw
        have := (hP (nsJoin ns a) tmpl.clone tbl).mpr hw
        rw [hd] at this
        cases this
      simp [subsFail]
      intro hw
      exact absurd hw this
    | none =>
      rw [parseSubs_cons_none ext a t r ns tmpl tbl tbl1 hd]
      have hw : walkFails ext t = false := by
        have := (hP (nsJoin ns a) tmpl.clone tbl).mp (by rw [hd])
        exact this
      simp [subsFail, hw, hQ]

theorem parseDir_err_iff (ext : String) (t : DirTree) (ns : String) (tmpl : Template)
    (tbl : Table) : (parseDir ext t ns tmpl tbl).2 = none ↔ walkFails ext t = false :=
  (walkErrAux ext).1 t ns tmpl tbl

theorem parseSubs_err_iff (ext : String) (s : SubTrees) (ns : String) (tmpl : Template)
    (tbl : Table) : (parseSubs ext s ns tmpl tbl).2 = none ↔ subsFail ext s = false :=
  (walkErrAux ext).2 s ns tmpl tbl

theorem walkUntouchedAux (ext : String) :
    (∀ t, ∀ ns tmpl tbl k, k ∉ nsList t ns →
      amLookup (parseDir ext t ns tmpl tbl).1 k = amLookup tbl k) ∧
    (∀ s, ∀ ns tmpl tbl k, k ∉ subsList s ns →
      amLookup (parseSubs ext s ns tmpl tbl).1 k = amLookup tbl k) := by
  apply DirTree.myInduction
    (fun t => ∀ ns tmpl tbl k, k ∉ nsList t ns →
      amLookup (parseDir ext t ns tmpl tbl).1 k = amLookup tbl k)
    (fun s => ∀ ns tmpl tbl k, k ∉ subsList s ns →
      amLookup (parseSubs ext s ns tmpl tbl).1 k = amLookup tbl k)
  · intro re fs s hQ ns tmpl tbl k hk
    rw [nsList, List.mem_cons, not_or] at hk
    cases re with
    | true => rw [parseDir_node_true]
    | false =>
      cases hf : parseFilesLocal ext tmpl fs with
      | none => rw [parseDir_node_none ext fs s ns tmpl tbl hf]
      | some tmpl' =>
        rw [parseDir_node_some ext fs s ns tmpl tmpl' tbl hf]
        rw [hQ ns tmpl' (amInsert tbl ns tmpl') k hk.2]
        exact amLookup_amInsert_ne tbl ns k tmpl' hk.1
  · intro ns tmpl tbl k _
    rfl
  · intro a t r hP hQ ns tmpl tbl k hk
    rw [subsList, List.mem_append, not_or] at hk
    rcases hd : parseDir ext t (nsJoin ns a) tmpl.clone tbl with ⟨tbl1, e1⟩
    have h1 : amLookup tbl1 k = amLookup tbl k := by
      have := hP (nsJoin ns a) tmpl.clone tbl k hk.1
      rw [hd] at this
      exact this
    cases e1 with
    | some e =>
      rw [parseSubs_cons_some ext a t r ns tmpl tbl tbl1 e hd]
      exact h1
    | none =>
      rw [parseSubs_cons_none ext a t r ns tmpl tbl tbl1 hd]
      rw [hQ ns tmpl tbl1 k hk.2]
      exact h1

theorem parseDir_untouched (ext : String) (t : DirTree) (ns : String) (tmpl : Template)
    (tbl : Table) (k : String) (hk : k ∉ nsList t ns) :
    amLookup (parseDir ext t ns tmpl tbl).1 k = amLookup tbl k :=
  (walkUntouchedAux ext).1 t ns tmpl tbl k hk

theorem parseSubs_untouched (ext : String) (s : SubTrees) (ns : String) (tmpl : Template)
    (tbl : Table) (k : String) (hk : k ∉ subsList s ns) :
    amLookup (parseSubs ext s ns tmpl tbl).1 k = amLookup tbl k :=
  (walkUntouchedAux ext).2 s ns tmpl tbl k hk

theorem walkMonoAux (ext : String) :
    (∀ t, ∀ ns tmpl tbl k, (amLookup tbl k).isSome = true →
      (amLookup (parseDir ext t ns tmpl tbl).1 k).isSome = true) ∧
    (∀ s, ∀ ns tmpl tbl k, (amLookup tbl k).isSome = true →
      (amLookup (parseSubs ext s ns tmpl tbl).1 k).isSome = true) := by
  apply DirTree.myInduction
    (fun t => ∀ ns tmpl tbl k, (amLookup tbl k).isSome = true →
      (amLookup (parseDir ext t ns tmpl tbl).1 k).isSome = true)
    (fun s => ∀ ns tmpl tbl k, (amLookup tbl k).isSome = true →
      (amLookup (parseSubs ext s ns tmpl tbl).1 k).isSome = true)
  · intro re fs s hQ ns tmpl tbl k hk
    cases re with
    | true => rw [parseDir_node_true]; exact hk
    | false =>
      cases hf : parseFilesLocal ext tmpl fs with
      | none => rw [parseDir_node_none ext fs s ns tmpl tbl hf]; exact hk
      | some tmpl' =>
        rw [parseDir_node_some ext fs s ns tmpl tmpl' tbl hf]
        exact hQ ns tmpl' (amInsert tbl ns tmpl') k
          (amLookup_amInsert_isSome tbl ns k tmpl' hk)
  · intro ns tmpl tbl k hk
    exact hk
  · intro a t r hP hQ ns tmpl tbl k hk
    rcases hd : parseDir ext t (nsJoin ns a) tmpl.clone tbl with ⟨tbl1, e1⟩
    have h1 : (amLookup tbl1 k).isSome = true := by
      have := hP (nsJoin ns a) tmpl.clone tbl k hk
      rw [hd] at this
      exact this
    cases e1 with
    | some e =>
      rw [parseSubs_cons_some ext a t r ns tmpl tbl tbl1 e hd]
      exact h1
    | none =>
      rw [parseSubs_cons_none ext a t r ns tmpl tbl tbl1 hd]
      exact hQ ns tmpl tbl1 k h1

theorem walkPresentAux (ext : String) :
    (∀ t, ∀ ns tmpl tbl k, (parseDir ext t ns tmpl tbl).2 = none → k ∈ nsList t ns →
      (amLookup (parseDir ext t ns tmpl tbl).1 k).isSome = true) ∧
    (∀ s, ∀ ns tmpl tbl k, (parseSubs ext s ns tmpl tbl).2 = none → k ∈ subsList s ns →
      (amLookup (parseSubs ext s ns tmpl tbl).1 k).isSome = true) := by
  apply DirTree.myInduction
    (fun t => ∀ ns tmpl tbl k, (parseDir ext t ns tmpl tbl).2 = none → k ∈ nsList t ns →
      (amLookup (parseDir ext t ns tmpl tbl).1 k).isSome = true)
    (fun s => ∀ ns tmpl tbl k, (parseSubs ext s ns tmpl tbl).2 = none → k ∈ subsList s ns →
      (amLookup (parseSubs ext s ns tmpl tbl).1 k).isSome = true)
  · intro re fs s hQ ns tmpl tbl k hok hk
    rw [nsList, List.mem_cons] at hk
    cases re with
    | true => rw [parseDir_node_true] at hok; cases hok
    | false =>
      cases hf : parseFilesLocal ext tmpl fs with
      | none => rw [parseDir_node_none ext fs s ns tmpl tbl hf] at hok; cases hok
      | some tmpl' =>
        rw [parseDir_node_some ext fs s ns tmpl tmpl' tbl hf] at hok ⊢
        rcases hk with hk | hk
        · subst hk
          exact (walkMonoAux ext).2 s k tmpl' (amInsert tbl k tmpl') k
            (by rw [amLookup_amInsert_self]; rfl)
        · exact hQ ns tmpl' (amInsert tbl ns tmpl') k hok hk
  · intro ns tmpl tbl k _ hk
    cases hk
  · intro a t r hP hQ ns tmpl tbl k hok hk
    rw [subsList, List.mem_append] at hk
    rcases hd : parseDir ext t (nsJoin ns a) tmpl.clone tbl with ⟨tbl1, e1⟩
    cases e1 with
    | some e =>
      rw [parseSubs_cons_some ext a t r ns tmpl tbl tbl1 e hd] at hok
      cases hok
    | none =>
      rw [parseSubs_cons_none ext a t r ns tmpl tbl tbl1 hd] at hok ⊢
      rcases hk with hk | hk
      · have h1 : (amLookup tbl1 k).isSome = true := by
          have := hP (nsJoin ns a) tmpl.clone tbl k (by rw [hd]) hk
          rw [hd] at this
          exact this
        exact (walkMonoAux ext).2 r ns tmpl tbl1 k h1
      · exact hQ ns tmpl tbl1 k hok hk

theorem nodupKeysAux (ext : String) :
    (∀ t, ∀ ns tmpl tbl, (tbl.map Prod.fst).Nodup →
      ((parseDir ext t ns tmpl tbl).1.map Prod.fst).Nodup) ∧
    (∀ s, ∀ ns tmpl tbl, (tbl.map Prod.fst).Nodup →
      ((parseSubs ext s ns tmpl tbl).1.map Prod.fst).Nodup) := by
  apply DirTree.myInduction
    (fun t => ∀ ns tmpl tbl, (tbl.map Prod.fst).Nodup →
      ((parseDir ext t ns tmpl tbl).1.map Prod.fst).Nodup)
    (fun s => ∀ ns tmpl tbl, (tbl.map Prod.fst).Nodup →
      ((parseSubs ext s ns tmpl tbl).1.map Prod.fst).Nodup)
  · intro re fs s hQ ns tmpl tbl hnd
    cases re with
    | true => rw [parseDir_node_true]; exact hnd
    | false =>
      cases hf : parseFilesLocal ext tmpl fs with
      | none => rw [parseDir_node_none ext fs s ns tmpl tbl hf]; exact hnd
      | some tmpl' =>
        rw [parseDir_node_some ext fs s ns tmpl tmpl' tbl hf]
        exact hQ ns tmpl' (amInsert tbl ns tmpl') (amInsert_keys_nodup tbl ns tmpl' hnd)
  · intro ns tmpl tbl hnd
    exact hnd
  · intro a t r hP hQ ns tmpl tbl hnd
    rcases hd : parseDir ext t (nsJoin ns a) tmpl.clone tbl with ⟨tbl1, e1⟩
    have h1 : (tbl1.map Prod.fst).Nodup := by
      have := hP (nsJoin ns a) tmpl.clone tbl hnd
      rw [hd] at this
      exact this
    cases e1 with
    | some e =>
      rw [parseSubs_cons_some ext a t r ns tmpl tbl tbl1 e hd]
      exact h1
    | none =>
      rw [parseSubs_cons_none ext a t r ns tmpl tbl tbl1 hd]
      exact hQ ns tmpl tbl1 h1

theorem walkIndepAux (ext : String) :
    (∀ t, ∀ ns tmpl tbl tbl' k, (parseDir ext t ns tmpl tbl).2 = none → k ∈ nsList t ns →
      amLookup (parseDir ext t ns tmpl tbl).1 k = amLookup (parseDir ext t ns tmpl tbl').1 k) ∧
    (∀ s, ∀ ns tmpl tbl tbl' k, (parseSubs ext s ns tmpl tbl).2 = none → k ∈ subsList s ns →
      amLookup (parseSubs ext s ns tmpl tbl).1 k = amLookup (parseSubs ext s ns tmpl tbl').1 k) := by
  apply DirTree.myInduction
    (fun t => ∀ ns tmpl tbl tbl' k, (parseDir ext t ns tmpl tbl).2 = none → k ∈ nsList t ns →
      amLookup (parseDir ext t ns tmpl tbl).1 k = amLookup (parseDir ext t ns tmpl tbl').1 k)
    (fun s => ∀ ns tmpl tbl tbl' k, (parseSubs ext s ns tmpl tbl).2 = none → k ∈ subsList s ns →
      amLookup (parseSubs ext s ns tmpl tbl).1 k = amLookup (parseSubs ext s ns tmpl tbl').1 k)
  · intro re fs s hQ ns tmpl tbl tbl' k hok hk
    rw [nsList, List.mem_cons] at hk
    cases re with
    | true => rw [parseDir_node_true] at hok; cases hok
    | false =>
      cases hf : parseFilesLocal ext tmpl fs with
      | none => rw [parseDir_node_none ext fs s ns tmpl tbl hf] at hok; cases hok
      | some tmpl' =>
        rw [parseDir_node_some ext fs s ns tmpl tmpl' tbl hf] at hok ⊢
        rw [parseDir_node_some ext fs s ns tmpl tmpl' tbl' hf]
        by_cases hks : k ∈ subsList s ns
        · exact hQ ns tmpl' (amInsert tbl ns tmpl') (amInsert tbl' ns tmpl') k hok hks
        · have hkn : k = ns := by
            rcases hk with hk | hk
            · exact hk
            · exact absurd hk hks
          subst hkn
          rw [parseSubs_untouched ext s k tmpl' (amInsert tbl k tmpl') k hks]
          rw [parseSubs_untouched ext s k tmpl' (amInsert tbl' k tmpl') k hks]
          rw [amLookup_amInsert_self, amLookup_amInsert_self]
  · intro ns tmpl tbl tbl' k _ hk
    cases hk
  · intro a t r hP hQ ns tmpl tbl tbl' k hok hk
    rw [subsList, List.mem_append] at hk
    rcases hd : parseDir ext t (nsJoin ns a) tmpl.clone tbl with ⟨tbl1, e1⟩
    cases e1 with
    | some e =>
      rw [parseSubs_cons_some ext a t r ns tmpl tbl tbl1 e hd] at hok
      cases hok
    | none =>
      have hwf : walkFails ext t = false := by
        have := (parseDir_err_iff ext t (nsJoin ns a) tmpl.clone tbl).mp (by rw [hd])
        exact this
      rcases hd' : parseDir ext t (nsJoin ns a) tmpl.clone tbl' with ⟨tbl1', e1'⟩
      cases e1' with
      | some e =>
        exact absurd ((parseDir_err_iff ext t (nsJoin ns a) tmpl.clone tbl').mpr hwf)
          (by rw [hd']; simp)
      | none =>
        rw [parseSubs_cons_none ext a t r ns tmpl tbl tbl1 hd] at hok ⊢
        rw [parseSubs_cons_none ext a t r ns tmpl tbl' tbl1' hd']
        by_cases hkr : k ∈ subsList r ns
        · exact hQ ns tmpl tbl1 tbl1' k hok hkr
        · have hkt : k ∈ nsList t (nsJoin ns a) := by
            rcases hk with hk | hk
            · exact hk
            · exact absurd hk hkr
          rw [parseSubs_untouched ext r ns tmpl tbl1 k hkr]
          rw [parseSubs_untouched ext r ns tmpl tbl1' k hkr]
          have := hP (nsJoin ns a) tmpl.clone tbl tbl' k (by rw [hd]) hkt
          rw [hd, hd'] at this
          exact this

/-!
The same suite for the abstract-filesystem walker.
-/

theorem parseDirFS_unsup (ext : String) (t : DirTree) (ns : String) (tmpl : Template)
    (tbl : Table) : parseDirFS false ext t ns tmpl tbl = (tbl, some .unsupportedOp) := by
  cases t with
  | node re fs s => rfl

theorem parseDirFS_node_true (ext : String) (files : List FileModel) (subs : SubTrees)
    (ns : String) (tmpl : Template) (tbl : Table) :
    parseDirFS true ext (.node true files subs) ns tmpl tbl = (tbl, some .parse) := rfl

theorem parseDirFS_node_none (ext : String) (files : List FileModel) (subs : SubTrees)
    (ns : String) (tmpl : Template) (tbl : Table)
    (hf : parseFilesFS ext tmpl files = none) :
    parseDirFS true ext (.node false files subs) ns tmpl tbl = (tbl, some .parse) := by
  rw [parseDirFS_node]
  simp [hf]

theorem parseDirFS_node_some (ext : String) (files : List FileModel) (subs : SubTrees)
    (ns : String) (tmpl tmpl' : Template) (tbl : Table)
    (hf : parseFilesFS ext tmpl files = some tmpl') :
    parseDirFS true ext (.node false files subs) ns tmpl tbl =
      parseSubsFS true ext subs ns tmpl' (amInsert tbl ns tmpl') := by
  rw [parseDirFS_node]
  simp [hf]

theorem walkErrFSAux (ext : String) :
    (∀ t, ∀ ns tmpl tbl,
      ((parseDirFS true ext t ns tmpl tbl).2 = none ↔ walkFails ext t = false)) ∧
    (∀ s, ∀ ns tmpl tbl,
      ((parseSubsFS true ext s ns tmpl tbl).2 = none ↔ subsFail ext s = false)) := by
  apply DirTree.myInduction
    (fun t => ∀ ns tmpl tbl,
      ((parseDirFS true ext t ns tmpl tbl).2 = none ↔ walkFails ext t = false))
    (fun s => ∀ ns tmpl tbl,
      ((parseSubsFS true ext s ns tmpl tbl).2 = none ↔ subsFail ext s = false))
  · intro re fs s hQ ns tmpl tbl
    cases re with
    | true => rw [parseDirFS_node_true]; simp [walkFails]
    | false =>
      cases hf : parseFilesFS ext tmpl fs with
      | none =>
        rw [parseDirFS_node_none ext fs s ns tmpl tbl hf]
        have := (parseFilesFS_eq_none ext tmpl fs).mp hf
        simp [walkFails, this]
      | some tmpl' =>
        rw [parseDirFS_node_some ext fs s ns tmpl tmpl' tbl hf]
        have hff : filesFail ext fs = false := by
          cases hc : filesFail ext fs
          · rfl
          · exact absurd ((parseFilesFS_eq_none ext tmpl fs).mpr hc) (by simp [hf])
        simp [walkFails, hff, hQ]
  · intro ns tmpl tbl
    simp [parseSubsFS_nil, subsFail]
  · intro a t r hP hQ ns tmpl tbl
    rcases hd : parseDirFS true ext t (nsJoin ns a) tmpl.clone tbl with ⟨tbl1, e1⟩
    cases e1 with
    | some e =>
      rw [parseSubsFS_cons_some true ext a t r ns tmpl tbl tbl1 e hd]
      have : ¬ walkFails ext t = false := by
        intro hw
        have := (hP (nsJoin ns a) tmpl.clone tbl).mpr hw
        rw [hd] at this
        cases this
      simp [subsFail]
      intro hw
      exact absurd hw this
    | none =>
      rw [parseSubsFS_cons_none true ext a t r ns tmpl tbl tbl1 hd]
      have hw : walkFails ext t = false := by
        have := (hP (nsJoin ns a) tmpl.clone tbl).mp (by rw [hd])
        exact this
      simp [subsFail, hw, hQ]

theorem walkUntouchedFSAux (ext : String) :
    (∀ t, ∀ ns tmpl tbl k, k ∉ nsList t ns →
      amLookup (parseDirFS true ext t ns tmpl tbl).1 k = amLookup tbl k) ∧
    (∀ s, ∀ ns tmpl tbl k, k ∉ subsList s ns →
      amLookup (parseSubsFS true ext s ns tmpl tbl).1 k = amLookup tbl k) := by
  apply DirTree.myInduction
    (fun t => ∀ ns tmpl tbl k, k ∉ nsList t ns →
      amLookup (parseDirFS true ext t ns tmpl tbl).1 k = amLookup tbl k)
    (fun s => ∀ ns tmpl tbl k, k ∉ subsList s ns →
      amLookup (parseSubsFS true ext s ns tmpl tbl).1 k = amLookup tbl k)
  · intro re fs s hQ ns tmpl tbl k hk
    rw [nsList, List.mem_cons, not_or] at hk
    cases re with
    | true => rw [parseDirFS_node_true]
    | false =>
      cases hf : parseFilesFS ext tmpl fs with
      | none => rw [parseDirFS_node_none ext fs s ns tmpl tbl hf]
      | some tmpl' =>
        rw [parseDirFS_node_some ext fs s ns tmpl tmpl' tbl hf]
        rw [hQ ns tmpl' (amInsert tbl ns tmpl') k hk.2]
        exact amLookup_amInsert_ne tbl ns k tmpl' hk.1
  · intro ns tmpl tbl k _
    rfl
  · intro a t r hP hQ ns tmpl tbl k hk
    rw [subsList, List.mem_append, not_or] at hk
    rcases hd : parseDirFS true ext t (nsJoin ns a) tmpl.clone tbl with ⟨tbl1, e1⟩
    have h1 : amLookup tbl1 k = amLookup tbl k := by
      have := hP (nsJoin ns a) tmpl.clone tbl k hk.1
      rw [hd] at this
      exact this
    cases e1 with
    | some e =>
      rw [parseSubsFS_cons_some true ext a t r ns tmpl tbl tbl1 e hd]
      exact h1
    | none =>
      rw [parseSubsFS_cons_none true ext a t r ns tmpl tbl tbl1 hd]
      rw [hQ ns tmpl tbl1 k hk.2]
      exact h1

theorem walkMonoFSAux (ext : String) :
    (∀ t, ∀ ns tmpl tbl k, (amLookup tbl k).isSome = true →
      (amLookup (parseDirFS true ext t ns tmpl tbl).1 k).isSome = true) ∧
    (∀ s, ∀ ns tmpl tbl k, (amLookup tbl k).isSome = true →
      (amLookup (parseSubsFS true ext s ns tmpl tbl).1 k).isSome = true) := by
  apply DirTree.myInduction
    (fun t => ∀ ns tmpl tbl k, (amLookup tbl k).isSome = true →
      (amLookup (parseDirFS true ext t ns tmpl tbl).1 k).isSome = true)
    (fun s => ∀ ns tmpl tbl k, (amLookup tbl k).isSome = true →
      (amLookup (parseSubsFS true ext s ns tmpl tbl).1 k).isSome = true)
  · intro re fs s hQ ns tmpl tbl k hk
    cases re with
    | true => rw [parseDirFS_node_true]; exact hk
    | false =>
      cases hf : parseFilesFS ext tmpl fs with
      | none => rw [parseDirFS_node_none ext fs s ns tmpl tbl hf]; exact hk
      | some tmpl' =>
        rw [parseDirFS_node_some ext fs s ns tmpl tmpl' tbl hf]
        exact hQ ns tmpl' (amInsert tbl ns tmpl') k
          (amLookup_amInsert_isSome tbl ns k tmpl' hk)
  · intro ns tmpl tbl k hk
    exact hk
  · intro a t r hP hQ ns tmpl tbl k hk
    rcases hd : parseDirFS true ext t (nsJoin ns a) tmpl.clone tbl with ⟨tbl1, e1⟩
    have h1 : (amLookup tbl1 k).isSome = true := by
      have := hP (nsJoin ns a) tmpl.clone tbl k hk
      rw [hd] at this
      exact this
    cases e1 with
    | some e =>
      rw [parseSubsFS_cons_some true ext a t r ns tmpl tbl tbl1 e hd]
      exact h1
    | none =>
      rw [parseSubsFS_cons_none true ext a t r ns tmpl tbl tbl1 hd]
      exact hQ ns tmpl tbl1 k h1

theorem walkPresentFSAux (ext : String) :
    (∀ t, ∀ ns tmpl tbl k, (parseDirFS true ext t ns tmpl tbl).2 = none → k ∈ nsList t ns →
      (amLookup (parseDirFS true ext t ns tmpl tbl).1 k).isSome = true) ∧
    (∀ s, ∀ ns tmpl tbl k, (parseSubsFS true ext s ns tmpl tbl).2 = none → k ∈ subsList s ns →
      (amLookup (parseSubsFS true ext s ns tmpl tbl).1 k).isSome = true) := by
  apply DirTree.myInduction
    (fun t => ∀ ns tmpl tbl k, (parseDirFS true ext t ns tmpl tbl).2 = none → k ∈ nsList t ns →
      (amLookup (parseDirFS true ext t ns tmpl tbl).1 k).isSome = true)
    (fun s => ∀ ns tmpl tbl k, (parseSubsFS true ext s ns tmpl tbl).2 = none → k ∈ subsList s ns →
      (amLookup (parseSubsFS true ext s ns tmpl tbl).1 k).isSome = true)
  · intro re fs s hQ ns tmpl tbl k hok hk
    rw [nsList, List.mem_cons] at hk
    cases re with
    | true => rw [parseDirFS_node_true] at hok; cases hok
    | false =>
      cases hf : parseFilesFS ext tmpl fs with
      | none => rw [parseDirFS_node_none ext fs s ns tmpl tbl hf] at hok; cases hok
      | some tmpl' =>
        rw [parseDirFS_node_some ext fs s ns tmpl tmpl' tbl hf] at hok ⊢
        rcases hk with hk | hk
        · subst hk
          exact (walkMonoFSAux ext).2 s k tmpl' (amInsert tbl k tmpl') k
            (by rw [amLookup_amInsert_self]; rfl)
        · exact hQ ns tmpl' (amInsert tbl ns tmpl') k hok hk
  · intro ns tmpl tbl k _ hk
    cases hk
  · intro a t r hP hQ ns tmpl tbl k hok hk
    rw [subsList, List.mem_append] at hk
    rcases hd : parseDirFS true ext t (nsJoin ns a) tmpl.clone tbl with ⟨tbl1, e1⟩
    cases e1 with
    | some e =>
      rw [parseSubsFS_cons_some true ext a t r ns tmpl tbl tbl1 e hd] at hok
      cases hok
    | none =>
      rw [parseSubsFS_cons_none true ext a t r ns tmpl tbl tbl1 hd] at hok ⊢
      rcases hk with hk | hk
      · have h1 : (amLookup tbl1 k).isSome = true := by
          have := hP (nsJoin ns a) tmpl.clone tbl k (by rw [hd]) hk
          rw [hd] at this
          exact this
        exact (walkMonoFSAux ext).2 r ns tmpl tbl1 k h1
      · exact hQ ns tmpl tbl1 k hok hk

/-!
Namespace-path disjointness: keys registered under distinct sibling
subdirectories are distinct strings. Everything is argued on the
underlying character lists.
-/

theorem seg_cancel (as : List Char) :
    ∀ (bs r r' : List Char), (∀ c ∈ as, c ≠ '/') → (∀ c ∈ bs, c ≠ '/') →
      goodSuffix r → goodSuffix r' → as ++ r = bs ++ r' → as = bs ∧ r = r' := by
  induction as with
  | nil =>
    intro bs r r' _ hb hr _ he
    cases bs with
    | nil => exact ⟨rfl, he⟩
    | cons c bs' =>
      exfalso
      rcases hr with hr | ⟨u, hr⟩
      · subst hr
        cases he
      · subst hr
        simp only [List.nil_append, List.cons_append, List.cons.injEq] at he
        exact hb c (by simp) he.1.symm
  | cons c as' ih =>
    intro bs r r' ha hb hr hr' he
    cases bs with
    | nil =>
      exfalso
      rcases hr' with hr' | ⟨u, hr'⟩
      · subst hr'
        cases he
      · subst hr'
        simp only [List.nil_append, List.cons_append, List.cons.injEq] at he
        exact ha c (by simp) he.1
    | cons c' bs' =>
      simp only [List.cons_append, List.cons.injEq] at he
      obtain ⟨h1, h2⟩ := he
      have := ih bs' r r' (fun x hx => ha x (by simp [hx])) (fun x hx => hb x (by simp [hx]))
        hr hr' h2
      exact ⟨by rw [h1, this.1], this.2⟩

theorem slashFree_chars (a : String) (h : slashFree a = true) : ∀ c ∈ a.data, c ≠ '/' := by
  rw [slashFree, List.all_eq_true] at h
  intro c hc
  simpa using h c hc

theorem nsPrefix_data_len (ns : String) : 1 ≤ (nsPrefix ns).data.length := by
  rw [nsPrefix]
  by_cases h : ns = "/"
  · simp [h]
  · simp [h, String.data_append]

theorem nsJoin_data (ns a : String) : (nsJoin ns a).data = (nsPrefix ns).data ++ a.data := by
  rw [nsJoin, String.data_append]

theorem nsJoin_ne_root (ns a : String) (ha : a.data ≠ []) : nsJoin ns a ≠ "/" := by
  intro h
  have hd := congrArg String.data h
  rw [nsJoin_data] at hd
  have hlen := congrArg List.length hd
  rw [List.length_append] at hlen
  have h1 := nsPrefix_data_len ns
  have h2 : 1 ≤ a.data.length := List.length_pos.mpr ha
  have : (String.data "/").length = 1 := rfl
  omega

theorem nsPrefix_of_ne_root (ns : String) (h : ns ≠ "/") : nsPrefix ns = ns ++ "/" := by
  rw [nsPrefix, if_neg h]

theorem nsJoin_data_of_ne_root (ns a : String) (h : ns ≠ "/") :
    (nsJoin ns a).data = ns.data ++ ('/' :: a.data) := by
  rw [nsJoin_data, nsPrefix_of_ne_root ns h, String.data_append]
  simp [show (String.data "/") = ['/'] from rfl]

theorem wfSubs_cons_parts (a : String) (t : DirTree) (rest : SubTrees)
    (h : wfSubs (.cons a t rest) = true) :
    a.data ≠ [] ∧ slashFree a = true ∧ subsHasName rest a = false ∧
      wfTree t = true ∧ wfSubs rest = true := by
  rw [wfSubs] at h
  simp only [Bool.and_eq_true, Bool.not_eq_true'] at h
  refine ⟨?_, h.1.1.1.2, h.1.1.2, h.1.2, h.2⟩
  have := h.1.1.1.1
  intro he
  rw [he] at this
  cases this

theorem nsListSuffixAux :
    (∀ t, wfTree t = true → ∀ ns k, k ∈ nsList t ns →
      k = ns ∨ ∃ c r, c.data ≠ [] ∧ slashFree c = true ∧
        k.data = (nsJoin ns c).data ++ r ∧ goodSuffix r) ∧
    (∀ s, wfSubs s = true → ∀ ns k, k ∈ subsList s ns →
      ∃ c r, subsHasName s c = true ∧ c.data ≠ [] ∧ slashFree c = true ∧
        k.data = (nsJoin ns c).data ++ r ∧ goodSuffix r) := by
  apply DirTree.myInduction
    (fun t => wfTree t = true → ∀ ns k, k ∈ nsList t ns →
      k = ns ∨ ∃ c r, c.data ≠ [] ∧ slashFree c = true ∧
        k.data = (nsJoin ns c).data ++ r ∧ goodSuffix r)
    (fun s => wfSubs s = true → ∀ ns k, k ∈ subsList s ns →
      ∃ c r, subsHasName s c = true ∧ c.data ≠ [] ∧ slashFree c = true ∧
        k.data = (nsJoin ns c).data ++ r ∧ goodSuffix r)
  · intro re fs s hQ hwf ns k hk
    rw [nsList, List.mem_cons] at hk
    rcases hk with hk | hk
    · exact Or.inl hk
    · rcases hQ hwf ns k hk with ⟨c, r, _, hcne, hcsf, hkd, hgr⟩
      exact Or.inr ⟨c, r, hcne, hcsf, hkd, hgr⟩
  · intro _ ns k hk
    cases hk
  · intro a t rest hP hQ hwf ns k hk
    obtain ⟨hane, hasf, _, hwft, hwfr⟩ := wfSubs_cons_parts a t rest hwf
    rw [subsList, List.mem_append] at hk
    rcases hk with hk | hk
    · rcases hP hwft (nsJoin ns a) k hk with hk1 | ⟨c', r', hcne', _, hkd', hgr'⟩
      · refine ⟨a, [], ?_, hane, hasf, ?_, Or.inl rfl⟩
        · rw [subsHasName]
          simp
        · rw [hk1, List.append_nil]
      · refine ⟨a, '/' :: (c'.data ++ r'), ?_, hane, hasf, ?_, Or.inr ⟨_, rfl⟩⟩
        · rw [subsHasName]
          simp
        · rw [hkd', nsJoin_data_of_ne_root (nsJoin ns a) c' (nsJoin_ne_root ns a hane)]
          simp
    · rcases hQ hwfr ns k hk with ⟨c, r, hcn, hcne, hcsf, hkd, hgr⟩
      refine ⟨c, r, ?_, hcne, hcsf, hkd, hgr⟩
      rw [subsHasName]
      simp [hcn]

theorem nsList_suffix (t : DirTree) (ns : String) (k : String)
    (hwf : wfTree t = true) (hns : ns ≠ "/") (hk : k ∈ nsList t ns) :
    ∃ r, k.data = ns.data ++ r ∧ goodSuffix r := by
  rcases nsListSuffixAux.1 t hwf ns k hk with hk1 | ⟨c, r, hcne, _, hkd, hgr⟩
  · exact ⟨[], by rw [hk1, List.append_nil], Or.inl rfl⟩
  · refine ⟨'/' :: (c.data ++ r), ?_, Or.inr ⟨_, rfl⟩⟩
    rw [hkd, nsJoin_data_of_ne_root ns c hns]
    simp

theorem joinAll_suffix (q : List String) : ∀ ns : String, 2 ≤ ns.data.length →
    ∃ r, (joinAll ns q).data = ns.data ++ r ∧ goodSuffix r := by
  induction q with
  | nil =>
    intro ns _
    exact ⟨[], by rw [joinAll, List.append_nil], Or.inl rfl⟩
  | cons c q' ih =>
    intro ns hlen
    have hns : ns ≠ "/" := by
      intro h
      rw [h] at hlen
      have : (String.data "/").length = 1 := rfl
      omega
    have hlen' : 2 ≤ (nsJoin ns c).data.length := by
      rw [nsJoin_data_of_ne_root ns c hns, List.length_append]
      simp only [List.length_cons]
      omega
    rcases ih (nsJoin ns c) hlen' with ⟨r, hr, hgr⟩
    rw [joinAll]
    refine ⟨'/' :: (c.data ++ r), ?_, Or.inr ⟨_, rfl⟩⟩
    rw [hr, nsJoin_data_of_ne_root ns c hns]
    simp

theorem nsJoin_data_len (ns a : String) (ha : a.data ≠ []) :
    2 ≤ (nsJoin ns a).data.length := by
  rw [nsJoin_data, List.length_append]
  have h1 := nsPrefix_data_len ns
  have h2 : 1 ≤ a.data.length := List.length_pos.mpr ha
  omega

theorem not_mem_branch (ns a c : String) (tc : DirTree) (T : String)
    (hwf : wfTree tc = true) (hac : a ≠ c)
    (ha_sf : slashFree a = true) (hc_ne : c.data ≠ []) (hc_sf : slashFree c = true)
    (rT : List Char) (hT : T.data = (nsJoin ns a).data ++ rT) (hgT : goodSuffix rT) :
    T ∉ nsList tc (nsJoin ns c) := by
  intro hmem
  rcases nsList_suffix tc (nsJoin ns c) T hwf (nsJoin_ne_root ns c hc_ne) hmem with
    ⟨rk, hk, hgk⟩
  rw [hT, nsJoin_data, nsJoin_data, List.append_assoc, List.append_assoc] at hk
  have hcancel := List.append_cancel_left hk
  have := seg_cancel a.data c.data rT rk (slashFree_chars a ha_sf)
    (slashFree_chars c hc_sf) hgT hgk hcancel
  exact hac (String.ext this.1)

theorem ns_not_mem_subsList (s : SubTrees) (ns : String) (hwf : wfSubs s = true) :
    ns ∉ subsList s ns := by
  intro hmem
  rcases nsListSuffixAux.2 s hwf ns ns hmem with ⟨c, r, _, hcne, _, hkd, _⟩
  rw [nsJoin_data, List.append_assoc] at hkd
  have hlen := congrArg List.length hkd
  rw [List.length_append, List.length_append] at hlen
  have h2 : 1 ≤ c.data.length := List.length_pos.mpr hcne
  by_cases h : ns = "/"
  · rw [h] at hlen
    have : (nsPrefix "/").data.length = 1 := rfl
    rw [this] at hlen
    have : (String.data "/").length = 1 := rfl
    omega
  · rw [nsPrefix_of_ne_root ns h, String.data_append] at hlen
    rw [List.length_append] at hlen
    have : (String.data "/").length = 1 := rfl
    omega

theorem branch_keys_ne (ns b c T : String) (rT rk : List Char)
    (hbsf : slashFree b = true) (hcsf : slashFree c = true) (hbc : b ≠ c)
    (hT : T.data = (nsJoin ns b).data ++ rT) (hgT : goodSuffix rT)
    (hk : T.data = (nsJoin ns c).data ++ rk) (hgk : goodSuffix rk) : False := by
  rw [hT, nsJoin_data, nsJoin_data, List.append_assoc, List.append_assoc] at hk
  have hcancel := List.append_cancel_left hk
  have := seg_cancel b.data c.data rT rk (slashFree_chars b hbsf)
    (slashFree_chars c hcsf) hgT hgk hcancel
  exact hbc (String.ext this.1)

theorem not_mem_subsList_branch (rest : SubTrees) (ns b T : String) (rT : List Char)
    (hwfr : wfSubs rest = true) (hnb : subsHasName rest b = false)
    (hbsf : slashFree b = true)
    (hT : T.data = (nsJoin ns b).data ++ rT) (hgT : goodSuffix rT) :
    T ∉ subsList rest ns := by
  intro hmem
  rcases nsListSuffixAux.2 rest hwfr ns T hmem with ⟨c, r, hcn, _, hcsf, hkd, hgr⟩
  have hbc : b ≠ c := by
    intro e
    rw [e] at hnb
    rw [hnb] at hcn
    cases hcn
  exact branch_keys_ne ns b c T rT r hbsf hcsf hbc hT hgT hkd hgr

theorem dirsAlong_cons_inv (re : Bool) (fs : List FileModel) (s : SubTrees)
    (a : String) (q : List String) (l : List (List FileModel))
    (h : dirsAlong (.node re fs s) (a :: q) = some l) :
    ∃ ta l', findSub s a = some ta ∧ dirsAlong ta q = some l' ∧ l = fs :: l' := by
  rw [dirsAlong] at h
  cases hfs : findSub s a with
  | none => rw [hfs] at h; cases h
  | some ta =>
    rw [hfs] at h
    replace h : Option.map (fun l => fs :: l) (dirsAlong ta q) = some l := h
    cases hdq : dirsAlong ta q with
    | none =>
      rw [hdq] at h
      cases h
    | some l' =>
      rw [hdq] at h
      replace h : some (fs :: l') = some l := h
      rw [Option.some.injEq] at h
      exact ⟨ta, l', rfl, hdq, h.symm⟩

theorem chainFold_nil (ext : String) (tmpl : Template) :
    chainFold ext tmpl [] = some tmpl := rfl

theorem chainFold_cons_some (ext : String) (tmpl tmpl' : Template)
    (files : List FileModel) (rest : List (List FileModel))
    (hf : parseFilesLocal ext tmpl files = some tmpl') :
    chainFold ext tmpl (files :: rest) = chainFold ext tmpl' rest := by
  rw [show chainFold ext tmpl (files :: rest) =
    (match parseFilesLocal ext tmpl files with
      | none => none
      | some t2 => chainFold ext t2 rest) from rfl, hf]

/-!
The characterization of the table a successful walk builds: the entry at
the namespace path of any directory reachable along a path of
subdirectory names is exactly the fold of the local file loop over the
chain of directories from the root to it.
-/

theorem walkChainAux (ext : String) :
    (∀ t, ∀ ns tmpl tbl, wfTree t = true → (parseDir ext t ns tmpl tbl).2 = none →
      ∀ p l, dirsAlong t p = some l →
        amLookup (parseDir ext t ns tmpl tbl).1 (joinAll ns p) = chainFold ext tmpl l) ∧
    (∀ s, ∀ ns tmpl tbl, wfSubs s = true → (parseSubs ext s ns tmpl tbl).2 = none →
      ∀ a q ta l, findSub s a = some ta → dirsAlong ta q = some l →
        amLookup (parseSubs ext s ns tmpl tbl).1 (joinAll (nsJoin ns a) q) =
          chainFold ext tmpl l) := by
  apply DirTree.myInduction
    (fun t => ∀ ns tmpl tbl, wfTree t = true → (parseDir ext t ns tmpl tbl).2 = none →
      ∀ p l, dirsAlong t p = some l →
        amLookup (parseDir ext t ns tmpl tbl).1 (joinAll ns p) = chainFold ext tmpl l)
    (fun s => ∀ ns tmpl tbl, wfSubs s = true → (parseSubs ext s ns tmpl tbl).2 = none →
      ∀ a q ta l, findSub s a = some ta → dirsAlong ta q = some l →
        amLookup (parseSubs ext s ns tmpl tbl).1 (joinAll (nsJoin ns a) q) =
          chainFold ext tmpl l)
  · intro re fs s hQ ns tmpl tbl hwf hok p l hdl
    rw [wfTree] at hwf
    cases re with
    | true => rw [parseDir_node_true] at hok; cases hok
    | false =>
      cases hf : parseFilesLocal ext tmpl fs with
      | none => rw [parseDir_node_none ext fs s ns tmpl tbl hf] at hok; cases hok
      | some tmpl' =>
        rw [parseDir_node_some ext fs s ns tmpl tmpl' tbl hf] at hok ⊢
        cases p with
        | nil =>
          rw [dirsAlong, Option.some.injEq] at hdl
          subst hdl
          rw [joinAll, chainFold_cons_some ext tmpl tmpl' fs [] hf, chainFold_nil]
          rw [parseSubs_untouched ext s ns tmpl' (amInsert tbl ns tmpl') ns
            (ns_not_mem_subsList s ns hwf)]
          rw [amLookup_amInsert_self]
        | cons a q =>
          rcases dirsAlong_cons_inv false fs s a q l hdl with ⟨ta, l', hfs, hdq, hleq⟩
          subst hleq
          rw [joinAll, chainFold_cons_some ext tmpl tmpl' fs l' hf]
          exact hQ ns tmpl' (amInsert tbl ns tmpl') hwf hok a q ta l' hfs hdq
  · intro ns tmpl tbl _ _ a q ta l hfs _
    rw [findSub] at hfs
    cases hfs
  · intro b tb rest hP hQ ns tmpl tbl hwf hok a q ta l hfs hdq
    obtain ⟨hbne, hbsf, hbnodup, hwft, hwfr⟩ := wfSubs_cons_parts b tb rest hwf
    rcases hd : parseDir ext tb (nsJoin ns b) tmpl.clone tbl with ⟨tbl1, e1⟩
    cases e1 with
    | some e =>
      rw [parseSubs_cons_some ext b tb rest ns tmpl tbl tbl1 e hd] at hok
      cases hok
    | none =>
      rw [parseSubs_cons_none ext b tb rest ns tmpl tbl tbl1 hd] at hok ⊢
      rw [findSub] at hfs
      by_cases hba : b = a
      · rw [if_pos hba] at hfs
        rw [Option.some.injEq] at hfs
        subst hfs
        subst hba
        have hchain := hP (nsJoin ns b) tmpl.clone tbl hwft (by rw [hd]) q l hdq
        rw [hd] at hchain
        rcases joinAll_suffix q (nsJoin ns b) (nsJoin_data_len ns b hbne) with ⟨rT, hT, hgT⟩
        rw [parseSubs_untouched ext rest ns tmpl tbl1 (joinAll (nsJoin ns b) q)
          (not_mem_subsList_branch rest ns b (joinAll (nsJoin ns b) q) rT hwfr hbnodup
            hbsf hT hgT)]
        rw [hchain]
        rfl
      · rw [if_neg hba] at hfs
        exact hQ ns tmpl tbl1 hwfr hok a q ta l hfs hdq

theorem parseDir_chain (ext : String) (t : DirTree) (ns : String) (tmpl : Template)
    (tbl : Table) (hwf : wfTree t = true) (hok : (parseDir ext t ns tmpl tbl).2 = none)
    (p : List String) (l : List (List FileModel)) (hdl : dirsAlong t p = some l) :
    amLookup (parseDir ext t ns tmpl tbl).1 (joinAll ns p) = chainFold ext tmpl l :=
  (walkChainAux ext).1 t ns tmpl tbl hwf hok p l hdl

/-!
A name not defined anywhere in a subtree has no definition along any
chain of directories inside that subtree.
-/

theorem chainNoDefAux (ext n : String) :
    (∀ t, treeDefines ext n t = false → ∀ p l, dirsAlong t p = some l →
      lastDefChain ext n l = none) ∧
    (∀ s, subsDefine ext n s = false → ∀ a ta q l, findSub s a = some ta →
      dirsAlong ta q = some l → lastDefChain ext n l = none) := by
  apply DirTree.myInduction
    (fun t => treeDefines ext n t = false → ∀ p l, dirsAlong t p = some l →
      lastDefChain ext n l = none)
    (fun s => subsDefine ext n s = false → ∀ a ta q l, findSub s a = some ta →
      dirsAlong ta q = some l → lastDefChain ext n l = none)
  · intro re fs s hQ hnd p l hdl
    rw [treeDefines, Bool.or_eq_false_iff] at hnd
    have hfs0 : lastDefFiles ext n fs = none := by
      cases hc : lastDefFiles ext n fs
      · rfl
      · rw [hc] at hnd
        cases hnd.1
    cases p with
    | nil =>
      rw [dirsAlong, Option.some.injEq] at hdl
      subst hdl
      rw [lastDefChain, lastDefChain, hfs0]
      rfl
    | cons a q =>
      rcases dirsAlong_cons_inv re fs s a q l hdl with ⟨ta, l', hfs, hdq, hleq⟩
      subst hleq
      rw [lastDefChain, hQ hnd.2 a ta q l' hfs hdq, hfs0]
      rfl
  · intro _ a ta q l hfs _
    rw [findSub] at hfs
    cases hfs
  · intro b tb rest hP hQ hnd a ta q l hfs hdq
    rw [subsDefine, Bool.or_eq_false_iff] at hnd
    rw [findSub] at hfs
    by_cases hba : b = a
    · rw [if_pos hba, Option.some.injEq] at hfs
      subst hfs
      exact hP hnd.1 q l hdq
    · rw [if_neg hba] at hfs
      exact hQ hnd.2 a ta q l hfs hdq

/-!
Bridge lemmas: unfolding the public entry points, propagating walk
success along chains, and composing paths.
-/

theorem New_ext (index ext : String) : (New index ext).ext = ext := rfl

theorem New_index (index ext : String) : (New index ext).index = index := rfl

theorem New_namespaces (index ext : String) : (New index ext).namespaces = [] := rfl

theorem ParseRoot_table (ns : Namespaces) (root : DirTree) :
    (ns.ParseRoot root).1.namespaces =
      (parseDir ns.ext root "/" (Template.mk "" []) ns.namespaces).1 := rfl

theorem ParseRoot_err (ns : Namespaces) (root : DirTree) :
    (ns.ParseRoot root).2 =
      (parseDir ns.ext root "/" (Template.mk "" []) ns.namespaces).2 := rfl

theorem ParseRoot_config (ns : Namespaces) (root : DirTree) :
    (ns.ParseRoot root).1.index = ns.index ∧ (ns.ParseRoot root).1.ext = ns.ext :=
  ⟨rfl, rfl⟩

theorem ParseRootFS_table (ns : Namespaces) (sup : Bool) (root : DirTree) :
    (ns.ParseRootFS sup root).1.namespaces =
      (parseDirFS sup ns.ext root "/" (Template.mk (ns.index ++ ns.ext) []) ns.namespaces).1 :=
  rfl

theorem ParseRootFS_err (ns : Namespaces) (sup : Bool) (root : DirTree) :
    (ns.ParseRootFS sup root).2 =
      (parseDirFS sup ns.ext root "/" (Template.mk (ns.index ++ ns.ext) []) ns.namespaces).2 :=
  rfl

theorem findSub_walkOk (ext : String) :
    ∀ s : SubTrees, subsFail ext s = false → ∀ a ta, findSub s a = some ta →
      walkFails ext ta = false := by
  have h := DirTree.myInduction (fun _ => True)
    (fun s => subsFail ext s = false → ∀ a ta, findSub s a = some ta →
      walkFails ext ta = false)
    (fun _ _ _ _ => trivial)
    (by
      intro _ a ta hfs
      rw [findSub] at hfs
      cases hfs)
    (by
      intro b tb rest _ hQ hok a ta hfs
      rw [subsFail, Bool.or_eq_false_iff] at hok
      rw [findSub] at hfs
      by_cases hba : b = a
      · rw [if_pos hba, Option.some.injEq] at hfs
        subst hfs
        exact hok.1
      · rw [if_neg hba] at hfs
        exact hQ hok.2 a ta hfs)
  exact h.2

theorem walkOk_chain_filesOk (ext : String) (t : DirTree) (p : List String)
    (l : List (List FileModel)) (hw : walkFails ext t = false)
    (hdl : dirsAlong t p = some l) : ∀ fs ∈ l, filesFail ext fs = false := by
  induction p generalizing t l with
  | nil =>
    cases t with
    | node re tfs s =>
      rw [dirsAlong, Option.some.injEq] at hdl
      subst hdl
      rw [walkFails, Bool.or_eq_false_iff, Bool.or_eq_false_iff] at hw
      intro fs hfs
      rw [List.mem_singleton] at hfs
      subst hfs
      exact hw.1.2
  | cons a q ih =>
    cases t with
    | node re tfs s =>
      rcases dirsAlong_cons_inv re tfs s a q l hdl with ⟨ta, l', hfs, hdq, hleq⟩
      subst hleq
      rw [walkFails, Bool.or_eq_false_iff, Bool.or_eq_false_iff] at hw
      intro fs hmem
      rw [List.mem_cons] at hmem
      rcases hmem with hmem | hmem
      · subst hmem
        exact hw.1.2
      · exact ih ta l' (findSub_walkOk ext s hw.2 a ta hfs) hdq fs hmem

theorem joinAll_append (p q : List String) : ∀ ns : String,
    joinAll ns (p ++ q) = joinAll (joinAll ns p) q := by
  induction p with
  | nil => intro ns; rfl
  | cons a p' ih =>
    intro ns
    rw [List.cons_append, joinAll, joinAll, ih]

theorem lastDefChain_append (ext n : String) (l1 l2 : List (List FileModel)) :
    lastDefChain ext n (l1 ++ l2) =
      oElse (lastDefChain ext n l2) (lastDefChain ext n l1) := by
  induction l1 with
  | nil => simp [lastDefChain]
  | cons fs l1' ih =>
    rw [List.cons_append, lastDefChain, ih, lastDefChain, oElse_assoc]

theorem dirsAlong_extend (p : List String) : ∀ (t tp : DirTree)
    (lp : List (List FileModel)), subtreeAt t p = some tp → dirsAlong t p = some lp →
    ∀ (a : String) (ta : DirTree) (q : List String) (lq : List (List FileModel)),
      findSub (subsOf tp) a = some ta → dirsAlong ta q = some lq →
      dirsAlong t (p ++ a :: q) = some (lp ++ lq) := by
  induction p with
  | nil =>
    intro t tp lp hp hlp a ta q lq ha hq
    rw [subtreeAt, Option.some.injEq] at hp
    subst hp
    cases t with
    | node re tfs s =>
      rw [dirsAlong, Option.some.injEq] at hlp
      subst hlp
      rw [List.nil_append, dirsAlong]
      rw [subsOf] at ha
      rw [ha]
      replace hq : dirsAlong ta q = some lq := hq
      rw [show ((some ta).bind fun ta => Option.map (fun l => tfs :: l) (dirsAlong ta q)) =
        Option.map (fun l => tfs :: l) (dirsAlong ta q) from rfl, hq]
      rfl
  | cons c p' ih =>
    intro t tp lp hp hlp a ta q lq ha hq
    cases t with
    | node re tfs s =>
      rw [subtreeAt] at hp
      cases hfc : findSub s c with
      | none => rw [hfc] at hp; cases hp
      | some tc =>
        rw [hfc] at hp
        replace hp : subtreeAt tc p' = some tp := hp
        rcases dirsAlong_cons_inv re tfs s c p' lp hlp with ⟨tc', lp', hfc', hdp', hleq⟩
        rw [hfc] at hfc'
        rw [Option.some.injEq] at hfc'
        subst hfc'
        subst hleq
        have hrec := ih tc tp lp' hp hdp' a ta q lq ha hq
        rw [List.cons_append, dirsAlong, hfc]
        rw [show ((some tc).bind fun tb =>
          Option.map (fun l => tfs :: l) (dirsAlong tb (p' ++ a :: q))) =
          Option.map (fun l => tfs :: l) (dirsAlong tc (p' ++ a :: q)) from rfl, hrec]
        rfl

theorem chain_from_dir (ext n : String) (ta : DirTree) (bB : String)
    (hB : lastDefFiles ext n (filesOf ta) = some bB)
    (hbelow : subsDefine ext n (subsOf ta) = false)
    (q : List String) (lq : List (List FileModel)) (hq : dirsAlong ta q = some lq) :
    lastDefChain ext n lq = some bB := by
  cases ta with
  | node re tfs s =>
    rw [filesOf] at hB
    rw [subsOf] at hbelow
    cases q with
    | nil =>
      rw [dirsAlong, Option.some.injEq] at hq
      subst hq
      rw [lastDefChain, lastDefChain, hB]
      rfl
    | cons c q' =>
      rcases dirsAlong_cons_inv re tfs s c q' lq hq with ⟨tc, lq', hfc, hdq', hleq⟩
      subst hleq
      rw [lastDefChain, (chainNoDefAux ext n).2 s hbelow c tc q' lq' hfc hdq', hB]
      rfl

/-!
The claims.
-/

/-- C8: ExecuteNamespace on a path absent from the namespace table fails
with the ErrNotFound kind; in the model an error return means nothing was
rendered into the sink and the registry state is untouched (the function
only reads the table). -/
theorem C8_execute_unregistered_notFound (ns : Namespaces) (path data : String)
    (h : amLookup ns.namespaces path = none) :
    ns.ExecuteNamespace path data = Except.error Err.notFound := by
  rw [Namespaces.ExecuteNamespace, h]

/-- C8 witness: a registry built from a one-directory tree, queried at an
unregistered path. -/
theorem C8_execute_unregistered_notFound_witness :
    amLookup (((New "index" ".tmpl").ParseRoot treeSingle).1).namespaces "/missing" = none ∧
    (((New "index" ".tmpl").ParseRoot treeSingle).1).ExecuteNamespace "/missing" "d" =
      Except.error Err.notFound :=
  ⟨by decide,
   C8_execute_unregistered_notFound (((New "index" ".tmpl").ParseRoot treeSingle).1)
     "/missing" "d" (by decide)⟩

/-- C9: building over an abstract filesystem whose directory handles do
not implement the read-dir capability fails with ErrUnsupportedOp, for
every tree — even one whose files would fail to parse — and returns the
registry unchanged, so the check precedes any template parsing. -/
theorem C9_unsupported_capability (ns : Namespaces) (root : DirTree) :
    ns.ParseRootFS false root = (ns, some Err.unsupportedOp) := by
  cases root with
  | node re fs s => rfl

/-- C10: a freshly constructed registry is empty at the public interface:
every namespace lookup misses, the namespace enumeration is empty, and
every execute call fails with ErrNotFound. -/
theorem C10_new_registry_empty (index ext p data : String) :
    (New index ext).Namespace p = none ∧
    (New index ext).DefinedNamespaces = [] ∧
    (New index ext).ExecuteNamespace p data = Except.error Err.notFound :=
  ⟨rfl, rfl, rfl⟩

/-- C1 counterexample: a build of treeSingle succeeds; rebuilding from
treeFailing fails (its subdirectory does not enumerate), yet the failed
build has overwritten the previously registered root namespace, so the
prior table does not remain queryable unchanged. -/
theorem C1_counterexample_partial_table_installed :
    (((New "index" ".tmpl").ParseRoot treeSingle).2 = none) ∧
    (((((New "index" ".tmpl").ParseRoot treeSingle).1).ParseRoot treeFailing).2 =
      some Err.parse) ∧
    amLookup (((((New "index" ".tmpl").ParseRoot treeSingle).1).ParseRoot
        treeFailing).1).namespaces "/" ≠
      amLookup ((((New "index" ".tmpl").ParseRoot treeSingle).1)).namespaces "/" := by
  refine ⟨rfl, rfl, ?_⟩
  decide

/-- C1 amended: a failed build does return an error, but the walk writes
into the live table as it goes, so only the namespace paths the failed
walk never writes are guaranteed to remain unchanged; paths written
before the failure point are installed, overwriting prior entries. -/
theorem C1_amended_failed_build (ns : Namespaces) (root : DirTree)
    (hf : walkFails ns.ext root = true) :
    ((ns.ParseRoot root).2).isSome = true ∧
    ∀ k, k ∉ nsList root "/" →
      amLookup (ns.ParseRoot root).1.namespaces k = amLookup ns.namespaces k := by
  constructor
  · rw [ParseRoot_err]
    cases he : (parseDir ns.ext root "/" (Template.mk "" []) ns.namespaces).2 with
    | none =>
      rw [parseDir_err_iff] at he
      rw [he] at hf
      cases hf
    | some e => rfl
  · intro k hk
    rw [ParseRoot_table]
    exact parseDir_untouched ns.ext root "/" (Template.mk "" []) ns.namespaces k hk

/-- C1 amended witness: a root that fails to enumerate; the build errors
and an unwalked path is untouched. -/
theorem C1_amended_failed_build_witness :
    walkFails (New "index" ".tmpl").ext treeReadErr = true ∧
    (((New "index" ".tmpl").ParseRoot treeReadErr).2).isSome = true ∧
    amLookup ((New "index" ".tmpl").ParseRoot treeReadErr).1.namespaces "/other" =
      amLookup (New "index" ".tmpl").namespaces "/other" :=
  ⟨by decide,
   (C1_amended_failed_build (New "index" ".tmpl") treeReadErr (by decide)).1,
   (C1_amended_failed_build (New "index" ".tmpl") treeReadErr (by decide)).2
     "/other" (by decide)⟩

/-- C2: after a successful build from a fresh registry the table has an
entry exactly at each namespace path of a directory reachable from the
root (nsList computes those paths: the root is keyed as the slash and a
subdirectory extends its parent key by a separator and its name), and the
table keys are pairwise distinct, so there is exactly one entry per
reachable directory. -/
theorem C2_table_completeness_and_keying (index ext : String) (t : DirTree)
    (hok : ((New index ext).ParseRoot t).2 = none) :
    (∀ k, ((amLookup ((New index ext).ParseRoot t).1.namespaces k).isSome = true ↔
      k ∈ nsList t "/")) ∧
    ((((New index ext).ParseRoot t).1.namespaces.map Prod.fst).Nodup) := by
  rw [ParseRoot_err, New_ext, New_namespaces] at hok
  constructor
  · intro k
    rw [ParseRoot_table, New_ext, New_namespaces]
    constructor
    · intro hsome
      by_contra hk
      rw [parseDir_untouched ext t "/" (Template.mk "" []) [] k hk] at hsome
      cases hsome
    · intro hk
      exact (walkPresentAux ext).1 t "/" (Template.mk "" []) [] k hok hk
  · rw [ParseRoot_table, New_ext, New_namespaces]
    exact (nodupKeysAux ext).1 t "/" (Template.mk "" []) [] List.nodup_nil

/-- C2 witness: the tree with a root and a home subdirectory yields keys
exactly at the slash and at /home. -/
theorem C2_table_completeness_and_keying_witness :
    ((New "index" ".tmpl").ParseRoot treeHome).2 = none ∧
    ((amLookup ((New "index" ".tmpl").ParseRoot treeHome).1.namespaces "/home").isSome =
        true ↔ "/home" ∈ nsList treeHome "/") ∧
    ((amLookup ((New "index" ".tmpl").ParseRoot treeHome).1.namespaces "/nope").isSome =
        true ↔ "/nope" ∈ nsList treeHome "/") ∧
    ((((New "index" ".tmpl").ParseRoot treeHome).1.namespaces.map Prod.fst).Nodup) :=
  ⟨rfl,
   (C2_table_completeness_and_keying "index" ".tmpl" treeHome rfl).1 "/home",
   (C2_table_completeness_and_keying "index" ".tmpl" treeHome rfl).1 "/nope",
   (C2_table_completeness_and_keying "index" ".tmpl" treeHome rfl).2⟩

/-- C5 counterexample: after a successful build of a tree with an old
subdirectory, a second successful build of a tree without it leaves the
stale /old entry in the table: the table is not replaced wholesale. -/
theorem C5_counterexample_stale_namespace_survives :
    (((New "index" ".tmpl").ParseRoot treeWithOld).2 = none) ∧
    ((((New "index" ".tmpl").ParseRoot treeWithOld).1.ParseRoot treeSingle).2 = none) ∧
    "/old" ∉ nsList treeSingle "/" ∧
    (amLookup ((((New "index" ".tmpl").ParseRoot treeWithOld).1.ParseRoot
      treeSingle).1.namespaces) "/old").isSome = true := by
  refine ⟨by decide, by decide, by decide, by decide⟩

/-- C5 amended: a successful rebuild updates the live table per key: at
every namespace path of the new tree the entry equals exactly what a
fresh build of that tree would install (no dependence on the prior
table), while keys the new walk never writes — including stale paths
from an earlier build — persist unchanged; the table is updated in place
rather than replaced wholesale. -/
theorem C5_amended_rebuild_updates_in_place (ns : Namespaces) (t2 : DirTree)
    (hok : (ns.ParseRoot t2).2 = none) :
    ∀ k, (k ∈ nsList t2 "/" →
        amLookup (ns.ParseRoot t2).1.namespaces k =
          amLookup ((New ns.index ns.ext).ParseRoot t2).1.namespaces k) ∧
      (k ∉ nsList t2 "/" →
        amLookup (ns.ParseRoot t2).1.namespaces k = amLookup ns.namespaces k) := by
  rw [ParseRoot_err] at hok
  intro k
  constructor
  · intro hk
    rw [ParseRoot_table, ParseRoot_table, New_ext, New_namespaces]
    exact (walkIndepAux ns.ext).1 t2 "/" (Template.mk "" []) ns.namespaces [] k hok hk
  · intro hk
    rw [ParseRoot_table]
    exact parseDir_untouched ns.ext t2 "/" (Template.mk "" []) ns.namespaces k hk

/-- C5 amended witness: rebuild from treeWithOld to treeSingle; at the
root key the entry matches a fresh build, and the stale /old key is
untouched. -/
theorem C5_amended_rebuild_updates_in_place_witness :
    ((((New "index" ".tmpl").ParseRoot treeWithOld).1.ParseRoot treeSingle).2 = none) ∧
    ("/" ∈ nsList treeSingle "/" ∧
      amLookup (((New "index" ".tmpl").ParseRoot treeWithOld).1.ParseRoot
          treeSingle).1.namespaces "/" =
        amLookup ((New (((New "index" ".tmpl").ParseRoot treeWithOld).1).index
          (((New "index" ".tmpl").ParseRoot treeWithOld).1).ext).ParseRoot
          treeSingle).1.namespaces "/") ∧
    ("/old" ∉ nsList treeSingle "/" ∧
      amLookup (((New "index" ".tmpl").ParseRoot treeWithOld).1.ParseRoot
          treeSingle).1.namespaces "/old" =
        amLookup (((New "index" ".tmpl").ParseRoot treeWithOld).1).namespaces "/old") :=
  ⟨by decide,
   ⟨by decide,
    (C5_amended_rebuild_updates_in_place (((New "index" ".tmpl").ParseRoot treeWithOld).1)
      treeSingle (by decide) "/").1 (by decide)⟩,
   ⟨by decide,
    (C5_amended_rebuild_updates_in_place (((New "index" ".tmpl").ParseRoot treeWithOld).1)
      treeSingle (by decide) "/old").2 (by decide)⟩⟩

/-- C6: rebuilding an unchanged tree after a successful build succeeds
again and leaves a table with pointwise identical lookups — hence the
same namespace paths — and identical ExecuteNamespace results for every
path and data. -/
theorem C6_idempotent_rebuild (index ext : String) (t : DirTree)
    (hok : ((New index ext).ParseRoot t).2 = none) :
    ((((New index ext).ParseRoot t).1.ParseRoot t).2 = none) ∧
    (∀ k, amLookup ((((New index ext).ParseRoot t).1.ParseRoot t).1).namespaces k =
      amLookup (((New index ext).ParseRoot t).1).namespaces k) ∧
    (∀ k data, ((((New index ext).ParseRoot t).1.ParseRoot t).1).ExecuteNamespace k data =
      (((New index ext).ParseRoot t).1).ExecuteNamespace k data) := by
  rw [ParseRoot_err, New_ext, New_namespaces] at hok
  have hwf : walkFails ext t = false := (parseDir_err_iff ext t "/" (Template.mk "" []) []).mp hok
  have hok2 : (parseDir ext t "/" (Template.mk "" [])
      (parseDir ext t "/" (Template.mk "" []) []).1).2 = none :=
    (parseDir_err_iff ext t "/" (Template.mk "" [])
      (parseDir ext t "/" (Template.mk "" []) []).1).mpr hwf
  have hlook : ∀ k,
      amLookup ((((New index ext).ParseRoot t).1.ParseRoot t).1).namespaces k =
        amLookup (((New index ext).ParseRoot t).1).namespaces k := by
    intro k
    rw [ParseRoot_table, ParseRoot_table, New_ext, New_namespaces]
    by_cases hk : k ∈ nsList t "/"
    · exact (walkIndepAux ext).1 t "/" (Template.mk "" [])
        (parseDir ext t "/" (Template.mk "" []) []).1 [] k hok2 hk
    · exact parseDir_untouched ext t "/" (Template.mk "" [])
        (parseDir ext t "/" (Template.mk "" []) []).1 k hk
  refine ⟨?_, hlook, ?_⟩
  · rw [ParseRoot_err]
    exact hok2
  · intro k data
    rw [Namespaces.ExecuteNamespace, Namespaces.ExecuteNamespace, hlook k]
    rfl

/-- C6 witness: rebuilding treeHome reproduces success, the lookup at
/home and the render of /home. -/
theorem C6_idempotent_rebuild_witness :
    (((New "index" ".tmpl").ParseRoot treeHome).2 = none) ∧
    ((((New "index" ".tmpl").ParseRoot treeHome).1.ParseRoot treeHome).2 = none) ∧
    (amLookup ((((New "index" ".tmpl").ParseRoot treeHome).1.ParseRoot
        treeHome).1).namespaces "/home" =
      amLookup (((New "index" ".tmpl").ParseRoot treeHome).1).namespaces "/home") ∧
    ((((New "index" ".tmpl").ParseRoot treeHome).1.ParseRoot
        treeHome).1).ExecuteNamespace "/home" "d" =
      (((New "index" ".tmpl").ParseRoot treeHome).1).ExecuteNamespace "/home" "d" :=
  ⟨by decide,
   (C6_idempotent_rebuild "index" ".tmpl" treeHome (by decide)).1,
   (C6_idempotent_rebuild "index" ".tmpl" treeHome (by decide)).2.1 "/home",
   (C6_idempotent_rebuild "index" ".tmpl" treeHome (by decide)).2.2 "/home" "d"⟩

/-- C7 counterexample: on a tree holding only sidebar.tmpl both walkers
succeed, but the local build defines a template named sidebar.tmpl in the
root namespace while the FS build does not (its Parse call put the body
under the index template name), so the namespace tables are not
structurally identical. -/
theorem C7_counterexample_walker_structures_differ :
    (((New "index" ".tmpl").ParseRoot treeSidebar).2 = none) ∧
    (((New "index" ".tmpl").ParseRootFS true treeSidebar).2 = none) ∧
    nsDefLookup ((New "index" ".tmpl").ParseRoot treeSidebar).1 "/" "sidebar.tmpl" =
      some "S" ∧
    nsDefLookup ((New "index" ".tmpl").ParseRootFS true treeSidebar).1 "/"
      "sidebar.tmpl" = none := by
  refine ⟨by decide, by decide, by decide, by decide⟩

/-- C7 amended: over a capable filesystem the two walkers succeed on
exactly the same trees, and on success they register exactly the same
set of namespace paths; the template sets inside a namespace, however,
differ in general (the local walker names a file top-level body after
the file, the FS walker parses it into the index template name). -/
theorem C7_amended_same_success_and_paths (index ext : String) (t : DirTree) :
    (((New index ext).ParseRootFS true t).2 = none ↔
      ((New index ext).ParseRoot t).2 = none) ∧
    (((New index ext).ParseRoot t).2 = none →
      ∀ k, (amLookup ((New index ext).ParseRootFS true t).1.namespaces k).isSome =
        (amLookup ((New index ext).ParseRoot t).1.namespaces k).isSome) := by
  constructor
  · rw [ParseRootFS_err, ParseRoot_err, New_ext, New_namespaces]
    rw [(walkErrFSAux ext).1 t "/" (Template.mk ((New index ext).index ++ ext) []) []]
    rw [parseDir_err_iff ext t "/" (Template.mk "" []) []]
  · intro hok k
    have hokF : ((New index ext).ParseRootFS true t).2 = none := by
      rw [ParseRootFS_err, New_ext, New_namespaces]
      rw [(walkErrFSAux ext).1 t "/" (Template.mk ((New index ext).index ++ ext) []) []]
      rw [ParseRoot_err, New_ext, New_namespaces] at hok
      exact (parseDir_err_iff ext t "/" (Template.mk "" []) []).mp hok
    rw [ParseRoot_err, New_ext, New_namespaces] at hok
    rw [ParseRootFS_err, New_ext, New_namespaces] at hokF
    rw [ParseRootFS_table, ParseRoot_table, New_ext, New_namespaces]
    by_cases hk : k ∈ nsList t "/"
    · rw [(walkPresentFSAux ext).1 t "/" (Template.mk ((New index ext).index ++ ext) [])
        [] k hokF hk]
      rw [(walkPresentAux ext).1 t "/" (Template.mk "" []) [] k hok hk]
    · rw [(walkUntouchedFSAux ext).1 t "/" (Template.mk ((New index ext).index ++ ext) [])
        [] k hk]
      rw [parseDir_untouched ext t "/" (Template.mk "" []) [] k hk]

/-- C7 amended witness: on treeHome the success equivalence holds and the
/home key is present in both tables. -/
theorem C7_amended_same_success_and_paths_witness :
    ((((New "index" ".tmpl").ParseRootFS true treeHome).2 = none ↔
      ((New "index" ".tmpl").ParseRoot treeHome).2 = none)) ∧
    (((New "index" ".tmpl").ParseRoot treeHome).2 = none) ∧
    ((amLookup ((New "index" ".tmpl").ParseRootFS true treeHome).1.namespaces
        "/home").isSome =
      (amLookup ((New "index" ".tmpl").ParseRoot treeHome).1.namespaces "/home").isSome) :=
  ⟨(C7_amended_same_success_and_paths "index" ".tmpl" treeHome).1,
   by decide,
   (C7_amended_same_success_and_paths "index" ".tmpl" treeHome).2 (by decide) "/home"⟩

/-- On a well-formed tree and a successful build from a fresh registry,
the body the namespace at a directory path associates with a template
name is the last definition of that name along the chain of directories
from the root to that directory. Shared core of the override and
isolation claims. -/
theorem build_defLookup (index ext : String) (t : DirTree) (n : String)
    (hwf : wfTree t = true) (hok : ((New index ext).ParseRoot t).2 = none)
    (P : List String) (L : List (List FileModel)) (hP : dirsAlong t P = some L) :
    nsDefLookup ((New index ext).ParseRoot t).1 (joinAll "/" P) n =
      lastDefChain ext n L := by
  rw [ParseRoot_err, New_ext, New_namespaces] at hok
  have hwalk : walkFails ext t = false :=
    (parseDir_err_iff ext t "/" (Template.mk "" []) []).mp hok
  have hchain := parseDir_chain ext t "/" (Template.mk "" []) [] hwf hok P L hP
  have hsome : (chainFold ext (Template.mk "" []) L).isSome = true :=
    chainFold_isSome ext (Template.mk "" []) L (walkOk_chain_filesOk ext t P L hwalk hP)
  rcases Option.isSome_iff_exists.mp hsome with ⟨tv, htv⟩
  rw [nsDefLookup, ParseRoot_table, New_ext, New_namespaces, hchain, htv]
  show amLookup tv.defs n = lastDefChain ext n L
  rw [chainFold_lookup ext (Template.mk "" []) tv L n htv]
  rw [show amLookup (Template.mk "" []).defs n = none from rfl, oElse_none_right]

/-- C3: in a well-formed tree where the chain of ancestors up to a parent
directory defines a template name with body bA, a child directory a
redefines it with body bB (and nothing strictly below a redefines it
again), and a sibling directory b nowhere defines it, a successful build
gives: the namespace of a and of every directory below a associate the
name with the child body bB, while the parent namespace and the
namespace of b and of every directory below b keep the ancestor body
bA. -/
theorem C3_override_semantics (index ext : String) (t : DirTree) (n : String)
    (hwf : wfTree t = true)
    (hok : ((New index ext).ParseRoot t).2 = none)
    (p : List String) (lp : List (List FileModel)) (hp : dirsAlong t p = some lp)
    (tp : DirTree) (htp : subtreeAt t p = some tp)
    (bA : String) (hA : lastDefChain ext n lp = some bA)
    (a : String) (ta : DirTree) (ha : findSub (subsOf tp) a = some ta)
    (bB : String) (hB : lastDefFiles ext n (filesOf ta) = some bB)
    (hbelow : subsDefine ext n (subsOf ta) = false)
    (b : String) (tb : DirTree) (hb : findSub (subsOf tp) b = some tb) (hab : a ≠ b)
    (hnb : treeDefines ext n tb = false) :
    (∀ q lq, dirsAlong ta q = some lq →
      nsDefLookup ((New index ext).ParseRoot t).1 (joinAll "/" (p ++ a :: q)) n =
        some bB) ∧
    nsDefLookup ((New index ext).ParseRoot t).1 (joinAll "/" p) n = some bA ∧
    (∀ q lq, dirsAlong tb q = some lq →
      nsDefLookup ((New index ext).ParseRoot t).1 (joinAll "/" (p ++ b :: q)) n =
        some bA) := by
  refine ⟨?_, ?_, ?_⟩
  · intro q lq hq
    have hfull := dirsAlong_extend p t tp lp htp hp a ta q lq ha hq
    rw [build_defLookup index ext t n hwf hok (p ++ a :: q) (lp ++ lq) hfull]
    rw [lastDefChain_append, chain_from_dir ext n ta bB hB hbelow q lq hq]
    rfl
  · rw [build_defLookup index ext t n hwf hok p lp hp]
    exact hA
  · intro q lq hq
    have hfull := dirsAlong_extend p t tp lp htp hp b tb q lq hb hq
    rw [build_defLookup index ext t n hwf hok (p ++ b :: q) (lp ++ lq) hfull]
    rw [lastDefChain_append, (chainNoDefAux ext n).1 tb hnb q lq hq, oElse_none, hA]

/-- C3 witness: in treeOverride the child namespace and its grandchild
hold the child definition of x.tmpl, while the root, the sibling and the
directory below the sibling hold the root definition. -/
theorem C3_override_semantics_witness :
    wfTree treeOverride = true ∧
    nsDefLookup ((New "index" ".tmpl").ParseRoot treeOverride).1
      (joinAll "/" ([] ++ "child" :: [])) "x.tmpl" = some "child-x" ∧
    nsDefLookup ((New "index" ".tmpl").ParseRoot treeOverride).1
      (joinAll "/" ([] ++ "child" :: ["grand"])) "x.tmpl" = some "child-x" ∧
    nsDefLookup ((New "index" ".tmpl").ParseRoot treeOverride).1
      (joinAll "/" []) "x.tmpl" = some "root-x" ∧
    nsDefLookup ((New "index" ".tmpl").ParseRoot treeOverride).1
      (joinAll "/" ([] ++ "sib" :: [])) "x.tmpl" = some "root-x" ∧
    nsDefLookup ((New "index" ".tmpl").ParseRoot treeOverride).1
      (joinAll "/" ([] ++ "sib" :: ["deep"])) "x.tmpl" = some "root-x" := by
  have h := C3_override_semantics "index" ".tmpl" treeOverride "x.tmpl" (by decide)
    (by decide) [] [[fileRootX]] rfl treeOverride rfl "root-x" (by decide)
    "child" treeChild rfl "child-x" (by decide) (by decide)
    "sib" treeSib rfl (by decide) (by decide)
  exact ⟨by decide, h.1 [] [[fileChildX]] rfl, h.1 ["grand"] [[fileChildX], []] rfl,
    h.2.1, h.2.2 [] [[]] rfl, h.2.2 ["deep"] [[], []] rfl⟩

/-- C4: in a well-formed tree with sibling directories a and b under a
common parent, a template name defined somewhere under a but neither
along the chain of common ancestors nor anywhere under b is absent from
the template set of the namespace of b and of every namespace below
b. -/
theorem C4_sibling_isolation (index ext : String) (t : DirTree) (n : String)
    (hwf : wfTree t = true)
    (hok : ((New index ext).ParseRoot t).2 = none)
    (p : List String) (lp : List (List FileModel)) (hp : dirsAlong t p = some lp)
    (tp : DirTree) (htp : subtreeAt t p = some tp)
    (a : String) (ta : DirTree) (ha : findSub (subsOf tp) a = some ta)
    (hdefA : treeDefines ext n ta = true)
    (b : String) (tb : DirTree) (hb : findSub (subsOf tp) b = some tb) (hab : a ≠ b)
    (hchain : lastDefChain ext n lp = none)
    (hnotB : treeDefines ext n tb = false) :
    ∀ q lq, dirsAlong tb q = some lq →
      nsDefLookup ((New index ext).ParseRoot t).1 (joinAll "/" (p ++ b :: q)) n =
        none := by
  intro q lq hq
  have hfull := dirsAlong_extend p t tp lp htp hp b tb q lq hb hq
  rw [build_defLookup index ext t n hwf hok (p ++ b :: q) (lp ++ lq) hfull]
  rw [lastDefChain_append, (chainNoDefAux ext n).1 tb hnotB q lq hq, oElse_none, hchain]

/-- C4 witness: in treeIso the name x.tmpl defined only under settings is
absent from the home namespace and from the namespace below it. -/
theorem C4_sibling_isolation_witness :
    wfTree treeIso = true ∧
    treeDefines ".tmpl" "x.tmpl" treeSettings = true ∧
    nsDefLookup ((New "index" ".tmpl").ParseRoot treeIso).1
      (joinAll "/" ([] ++ "home" :: [])) "x.tmpl" = none ∧
    nsDefLookup ((New "index" ".tmpl").ParseRoot treeIso).1
      (joinAll "/" ([] ++ "home" :: ["inner"])) "x.tmpl" = none := by
  have h := C4_sibling_isolation "index" ".tmpl" treeIso "x.tmpl" (by decide) (by decide)
    [] [[]] rfl treeIso rfl "settings" treeSettings rfl (by decide)
    "home" treeHomeBranch rfl (by decide) (by decide) (by decide)
  exact ⟨by decide, by decide, h [] [[]] rfl, h ["inner"] [[], []] rfl⟩

end Templatex
